import Mathlib

/-!
# swamd: annotation comments to markdown tables

A shallow embedding of `swamd.go`.  Go strings are modelled as lists of
Unicode code points (`Str`); the texts the program handles come out of the Go
parser and are valid UTF-8.  Run-time panics of the Go code (nil dereference,
index out of range) are explicit `Except` results.

The regular expressions of the program are kept as data (`Re`) and run by a
backtracking matcher, which is the leftmost-first semantics of Go's `regexp`
package: alternatives are tried left to right, repetitions are greedy, and the
first start position that admits a match wins.
-/

namespace Swamd

/-- Go strings, as lists of code points. -/
abbrev Str := List Char

/-! ## Character classes -/

/-- The class `[[:space:]]` of Go regular expressions: `[\t\n\v\f\r ]`. -/
def isSpaceClass (c : Char) : Bool :=
  (9 ≤ c.toNat && c.toNat ≤ 13) || c.toNat == 32

/-- The Perl class `\s` of Go regular expressions: `[\t\n\f\r ]`. -/
def isPerlSpace (c : Char) : Bool :=
  c.toNat == 9 || c.toNat == 10 || c.toNat == 12 || c.toNat == 13 || c.toNat == 32

/-- The class `[[:alnum:]]`: `[0-9A-Za-z]`. -/
def isAlnum (c : Char) : Bool :=
  (48 ≤ c.toNat && c.toNat ≤ 57) || (65 ≤ c.toNat && c.toNat ≤ 90) ||
    (97 ≤ c.toNat && c.toNat ≤ 122)

/-- The Perl class `\d`: `[0-9]`. -/
def isDigit (c : Char) : Bool :=
  48 ≤ c.toNat && c.toNat ≤ 57

/-- The pattern `.` without the `s` flag: any character but the newline. -/
def isDot (c : Char) : Bool :=
  c.toNat != 10

/-- The class `[^\}]`: any character but the closing brace. -/
def isNotRBrace (c : Char) : Bool :=
  c.toNat != 125

/-- Go's `unicode.IsSpace`: the code points with the White_Space property. -/
def isSpace (c : Char) : Bool :=
  (9 ≤ c.toNat && c.toNat ≤ 13) || c.toNat == 32 || c.toNat == 0x85 || c.toNat == 0xA0 ||
    c.toNat == 0x1680 || (0x2000 ≤ c.toNat && c.toNat ≤ 0x200A) || c.toNat == 0x2028 ||
    c.toNat == 0x2029 || c.toNat == 0x202F || c.toNat == 0x205F || c.toNat == 0x3000

/-! ## Regular expressions -/

/-- The fragment of Go's regular-expression syntax the program uses.  Repetition
is only ever applied to a single character class in the program's patterns. -/
inductive Re where
  /-- A literal string. -/
  | lit (w : Str)
  /-- One character of a class. -/
  | cls (p : Char → Bool)
  /-- Greedy `c*` over a class. -/
  | star (p : Char → Bool)
  /-- Greedy `c+` over a class. -/
  | plus (p : Char → Bool)
  /-- Concatenation. -/
  | seq (a b : Re)
  /-- Alternation `a|b`, the left branch preferred. -/
  | alt (a b : Re)
  /-- Greedy `a?`. -/
  | opt (a : Re)
  /-- Capture group number `i`. -/
  | group (i : Nat) (a : Re)
  /-- The anchor `^` (beginning of text, no `m` flag). -/
  | bot
  /-- The anchor `$` (end of text, no `m` flag). -/
  | eot

/-- Submatches recorded so far: group number and captured text, latest first. -/
abbrev Caps := List (Nat × Str)

/-- Strip the literal `w` from the front of the input. -/
def stripLit : Str → Str → Option Str
  | [], s => some s
  | _ :: _, [] => none
  | c :: w, d :: s => if c = d then stripLit w s else none

/-- Greedy repetition of a class: take one more character when possible and
fall back to stopping here when the rest of the pattern fails. -/
def starGo {α : Type} (p : Char → Bool) (k : Nat → Str → Option α) : Nat → Str → Option α
  | pos, [] => k pos []
  | pos, c :: s =>
    if p c then
      match starGo p k (pos + 1) s with
      | some r => some r
      | none => k pos (c :: s)
    else k pos (c :: s)

/-- Backtracking matcher in continuation-passing style.  `pos` is the number of
characters before the remaining input `s`; `k` runs the rest of the pattern. -/
def Re.run {α : Type} : Re → Nat → Str → Caps → (Nat → Str → Caps → Option α) → Option α
  | .lit w, pos, s, caps, k =>
    match stripLit w s with
    | some s' => k (pos + w.length) s' caps
    | none => none
  | .cls p, pos, s, caps, k =>
    match s with
    | c :: s' => if p c then k (pos + 1) s' caps else none
    | [] => none
  | .star p, pos, s, caps, k => starGo p (fun pos' s' => k pos' s' caps) pos s
  | .plus p, pos, s, caps, k =>
    match s with
    | c :: s' => if p c then starGo p (fun pos' s' => k pos' s' caps) (pos + 1) s' else none
    | [] => none
  | .seq a b, pos, s, caps, k =>
    a.run pos s caps (fun pos' s' caps' => b.run pos' s' caps' k)
  | .alt a b, pos, s, caps, k =>
    match a.run pos s caps k with
    | some r => some r
    | none => b.run pos s caps k
  | .opt a, pos, s, caps, k =>
    match a.run pos s caps k with
    | some r => some r
    | none => k pos s caps
  | .group i a, pos, s, caps, k =>
    a.run pos s caps (fun pos' s' caps' => k pos' s' ((i, s.take (pos' - pos)) :: caps'))
  | .bot, pos, s, caps, k => if pos = 0 then k pos s caps else none
  | .eot, pos, s, caps, k =>
    match s with
    | [] => k pos s caps
    | _ :: _ => none

/-- Number of capture groups of a pattern. -/
def Re.numGroups : Re → Nat
  | .seq a b => a.numGroups + b.numGroups
  | .alt a b => a.numGroups + b.numGroups
  | .opt a => a.numGroups
  | .group _ a => a.numGroups + 1
  | _ => 0

/-- Match the whole pattern (as group 0) at the current position. -/
def matchAt (re : Re) (pos : Nat) (s : Str) : Option Caps :=
  (Re.group 0 re).run pos s [] (fun _ _ caps => some caps)

/-- Unanchored search: the leftmost start position that admits a match. -/
def searchFrom (re : Re) : Nat → Str → Option Caps
  | pos, [] => matchAt re pos []
  | pos, c :: s =>
    match matchAt re pos (c :: s) with
    | some caps => some caps
    | none => searchFrom re (pos + 1) s

/-- Text captured by group `i`; the empty string when the group took no part. -/
def capture (caps : Caps) (i : Nat) : Str :=
  match caps.find? (fun e => e.1 == i) with
  | some e => e.2
  | none => []

/-- Go's `regexp.MatchString`. -/
def MatchString (re : Re) (text : Str) : Bool :=
  (searchFrom re 0 text).isSome

/-- Go's `(*Regexp).FindStringSubmatch`: `nil` without a match, else the whole
match followed by the text of each capture group. -/
def FindStringSubmatch (re : Re) (text : Str) : List Str :=
  match searchFrom re 0 text with
  | none => []
  | some caps => (List.range (re.numGroups + 1)).map (capture caps)

/-! ## Library functions of Go used by the program -/

/-- Run-time panics of the Go program. -/
inductive Panic where
  /-- Dereference of a nil pointer. -/
  | nilDereference
  /-- Index out of range. -/
  | indexOutOfRange
deriving DecidableEq

/-- Go's `strings.TrimSpace`: drop leading and trailing Unicode white space. -/
def TrimSpace (s : Str) : Str :=
  ((s.dropWhile isSpace).reverse.dropWhile isSpace).reverse

/-- Cut the text at the first space character, if there is one. -/
def cutSpace : Str → Option (Str × Str)
  | [] => none
  | c :: s =>
    if c = ' ' then some ([], s)
    else
      match cutSpace s with
      | some (a, b) => some (c :: a, b)
      | none => none

/-- Go's `strings.SplitN(s, " ", 2)`. -/
def SplitN2 (s : Str) : List Str :=
  match cutSpace s with
  | some (a, b) => [a, b]
  | none => [s]

/-- Go's `unicode.ToUpper`; `upperCase` stands for the case tables of the
Unicode database, consulted above the ASCII range only. -/
def unicodeToUpper (upperCase : Char → Char) (r : Char) : Char :=
  if r.toNat ≤ 0x7F then
    if 97 ≤ r.toNat ∧ r.toNat ≤ 122 then Char.ofNat (r.toNat - 32) else r
  else upperCase r

/-- Go's `strings.ToUpper`. -/
def ToUpper (upperCase : Char → Char) (s : Str) : Str :=
  s.map (unicodeToUpper upperCase)

/-- Go's `strings.Join`. -/
def Join : List Str → Str → Str
  | [], _ => []
  | [x], _ => x
  | x :: y :: rest, sep => x ++ sep ++ Join (y :: rest) sep

/-- Value of a string of decimal digits, `none` on any other character. -/
def digitsValue : Str → Nat → Option Nat
  | [], acc => some acc
  | c :: s, acc => if isDigit c then digitsValue s (acc * 10 + (c.toNat - 48)) else none

/-- Go's `strconv.Atoi` on a 64-bit platform; `none` stands for the error
results (syntax error or value out of range). -/
def Atoi (s : Str) : Option Int :=
  let (neg, body) := match s with
    | '-' :: r => (true, r)
    | '+' :: r => (false, r)
    | r => (false, r)
  match body with
  | [] => none
  | _ :: _ =>
    match digitsValue body 0 with
    | none => none
    | some n =>
      if neg then (if n ≤ 2 ^ 63 then some (-(n : Int)) else none)
      else (if n < 2 ^ 63 then some (n : Int) else none)

/-- The verb `%d` of `fmt.Sprintf` on an `int`. -/
def formatInt (i : Int) : Str :=
  match i with
  | Int.ofNat n => Nat.toDigits 10 n
  | Int.negSucc n => '-' :: Nat.toDigits 10 (n + 1)

/-! ## The program -/

/-- The struct `SwagAnnotationComment`. -/
structure SwagAnnotationComment where
  CommentType : Str
  CommentText : Str
deriving DecidableEq

/-- The struct `MarkdownParam`. -/
structure MarkdownParam where
  Name : Str
  In : Str
  Required : Bool
  Type_ : Str
  Description : Str
deriving DecidableEq

/-- The struct `MarkdownResponse`. -/
structure MarkdownResponse where
  Code : Int
  ParamType : Str
  DataType : Str
  Description : Str
deriving DecidableEq

/-- The struct `MarkdownAPISpec`. -/
structure MarkdownAPISpec where
  Method : Str
  Path : Str
  Summary : Str
  Description : Str
  Tags : List Str
  Accept : List Str
  Produce : List Str
  Params : List MarkdownParam
  Responses : List MarkdownResponse
deriving DecidableEq

/-- The alternation `(Summary|Description|Tags|Accept|Produce|Param|Success|Router)`
shared by the two annotation patterns, as capture group 1. -/
def tagAlternation : Re :=
  .group 1 (.alt (.lit "Summary".toList) (.alt (.lit "Description".toList)
    (.alt (.lit "Tags".toList) (.alt (.lit "Accept".toList) (.alt (.lit "Produce".toList)
    (.alt (.lit "Param".toList) (.alt (.lit "Success".toList) (.lit "Router".toList))))))))

/-- The pattern `annotationRegex` of `hasSwaggerAnnotation`:
`@(Summary|Description|Tags|Accept|Produce|Param|Success|Router)`. -/
def annotationRegex : Re :=
  .seq (.lit ['@']) tagAlternation

/-- The pattern `textRegex` of `extractAnnotationComment`:
`@(Summary|Description|Tags|Accept|Produce|Param|Success|Router)[[:space:]]+(.*)`. -/
def textRegex : Re :=
  .seq (.lit ['@']) (.seq tagAlternation (.seq (.plus isSpaceClass) (.group 2 (.star isDot))))

/-- The pattern `paramRegex` of `NewMarkdownParam`:
`([[:alnum:]]+)[[:space:]]+([[:alnum:]]+)[[:space:]]+([[:alnum:]]+)[[:space:]]+(true|false)[[:space:]]+(.*)`. -/
def paramRegex : Re :=
  .seq (.group 1 (.plus isAlnum)) (.seq (.plus isSpaceClass)
  (.seq (.group 2 (.plus isAlnum)) (.seq (.plus isSpaceClass)
  (.seq (.group 3 (.plus isAlnum)) (.seq (.plus isSpaceClass)
  (.seq (.group 4 (.alt (.lit "true".toList) (.lit "false".toList))) (.seq (.plus isSpaceClass)
  (.group 5 (.star isDot)))))))))

/-- The pattern `respRegex` of `NewMarkdownResponse`:
`^(\d{3})\s*(\{[^\}]*\})?\s*(.*)$`. -/
def respRegex : Re :=
  .seq .bot (.seq (.group 1 (.seq (.cls isDigit) (.seq (.cls isDigit) (.cls isDigit))))
  (.seq (.star isPerlSpace)
  (.seq (.opt (.group 2 (.seq (.lit ['{']) (.seq (.star isNotRBrace) (.lit ['}'])))))
  (.seq (.star isPerlSpace) (.seq (.group 3 (.star isDot)) .eot)))))

/-- The function `hasSwaggerAnnotation`.  The pattern compiles, so the error
branch of `regexp.MatchString` is never taken. -/
def hasSwaggerAnnotation (comment : Str) : Bool :=
  MatchString annotationRegex comment

/-- The function `extractAnnotationComment`; `none` is the nil pointer. -/
def extractAnnotationComment (comment : Str) : Option SwagAnnotationComment :=
  let m := FindStringSubmatch textRegex comment
  if m.length > 2 then
    some { CommentType := m.getD 1 [], CommentText := m.getD 2 [] }
  else none

/-- The function `NewMarkdownParam`; `none` is the nil pointer. -/
def NewMarkdownParam (commentText : Str) : Option MarkdownParam :=
  let m := FindStringSubmatch paramRegex commentText
  if m.length > 5 then
    some { Name := m.getD 1 [], In := m.getD 2 [], Type_ := m.getD 3 [],
           Required := decide (m.getD 4 [] = "true".toList), Description := m.getD 5 [] }
  else none

/-- The function `NewMarkdownResponse`; `none` is the nil pointer. -/
def NewMarkdownResponse (commentText : Str) : Option MarkdownResponse :=
  let m := FindStringSubmatch respRegex commentText
  if m.length ≥ 2 then
    match Atoi (m.getD 1 []) with
    | none => none
    | some code =>
      let respType := if m.length ≥ 3 then m.getD 2 [] else []
      let respDataType := if m.length ≥ 4 then m.getD 3 [] else []
      let description := if m.length ≥ 5 then m.getD 4 [] else []
      some { Code := code, ParamType := respType, DataType := respDataType,
             Description := description }
  else none

/-- The function `parseRouter`: `parts[1]` panics when the text has no space. -/
def parseRouter (commentText : Str) : Except Panic (Str × Str) :=
  let parts := SplitN2 commentText
  match parts with
  | p0 :: p1 :: _ => .ok (TrimSpace p0, TrimSpace p1)
  | _ => .error .indexOutOfRange

/-- One iteration of the loop of `NewMarkdownAPISpec`: the `switch` on the tag. -/
def assembleStep (m : MarkdownAPISpec) (a : SwagAnnotationComment) :
    Except Panic MarkdownAPISpec :=
  if a.CommentType = "Summary".toList then .ok { m with Summary := a.CommentText }
  else if a.CommentType = "Description".toList then .ok { m with Description := a.CommentText }
  else if a.CommentType = "Tags".toList then .ok { m with Tags := m.Tags ++ [a.CommentText] }
  else if a.CommentType = "Accept".toList then .ok { m with Accept := m.Accept ++ [a.CommentText] }
  else if a.CommentType = "Produce".toList then
    .ok { m with Produce := m.Produce ++ [a.CommentText] }
  else if a.CommentType = "Param".toList then
    match NewMarkdownParam a.CommentText with
    | some p => .ok { m with Params := m.Params ++ [p] }
    | none => .ok m
  else if a.CommentType = "Success".toList ∨ a.CommentType = "Failure".toList then
    match NewMarkdownResponse a.CommentText with
    | some s => .ok { m with Responses := m.Responses ++ [s] }
    | none => .ok m
  else if a.CommentType = "Router".toList then
    match parseRouter a.CommentText with
    | .ok (path, method) => .ok { m with Path := path, Method := method }
    | .error e => .error e
  else .ok m

/-- The loop of `NewMarkdownAPISpec` from a given record. -/
def assembleFrom : MarkdownAPISpec → List SwagAnnotationComment → Except Panic MarkdownAPISpec
  | m, [] => .ok m
  | m, a :: rest =>
    match assembleStep m a with
    | .ok m' => assembleFrom m' rest
    | .error e => .error e

/-- The zero value of `MarkdownAPISpec`. -/
def emptySpec : MarkdownAPISpec :=
  { Method := [], Path := [], Summary := [], Description := [], Tags := [], Accept := [],
    Produce := [], Params := [], Responses := [] }

/-- The function `NewMarkdownAPISpec`. -/
def NewMarkdownAPISpec (swagAnnotationComments : List SwagAnnotationComment) :
    Except Panic MarkdownAPISpec :=
  assembleFrom emptySpec swagAnnotationComments

/-- The separator written between the word and the description of a parameter
row, as the source file spells it: the code points U+00E2, U+20AC, U+201C. -/
def paramDash : Str :=
  [Char.ofNat 0xE2, Char.ofNat 0x20AC, Char.ofNat 0x201C]

/-- The rows of the Params block: the loop over `m.Params`, `i` the index and
`n` the value of `len(m.Params)`. -/
def paramRows (n : Nat) : Nat → List MarkdownParam → Str
  | _, [] => []
  | i, param :: rest =>
    let mandatory := if param.Required then "required".toList else "optional".toList
    let borders := if n > 1 ∧ i > 0 then "||".toList else "|".toList
    borders ++ "**".toList ++ param.Name ++ "** ".toList ++ param.In ++ " \x7b".toList ++
      param.Type_ ++ "\x7d ".toList ++ mandatory ++ " ".toList ++ paramDash ++ " ".toList ++
      param.Description ++ "|\n".toList ++ paramRows n (i + 1) rest

/-- The rows of the Responses block: the loop over `m.Responses`, `i` the index
and `n` the value of `len(m.Params)`, which is what the source tests. -/
def responseRows (n : Nat) : Nat → List MarkdownResponse → Str
  | _, [] => []
  | i, resp :: rest =>
    let borders := if n > 1 ∧ i > 0 then "||".toList else "|".toList
    borders ++ "**".toList ++ formatInt resp.Code ++ "** ".toList ++ resp.ParamType ++
      " ".toList ++ resp.DataType ++ " ".toList ++ resp.Description ++ "|\n".toList ++
      responseRows n (i + 1) rest

/-- The method `(*MarkdownAPISpec).String`. -/
def MarkdownAPISpec.String (upperCase : Char → Char) (m : MarkdownAPISpec) : Str :=
  "|".toList ++ ToUpper upperCase m.Method ++ "|".toList ++ m.Path ++ "|\n".toList ++
  "| --- | --- |\n".toList ++
  (if m.Summary ≠ [] then "|summary|".toList ++ m.Summary ++ "|\n".toList else []) ++
  (if m.Description ≠ [] then "|description|".toList ++ m.Description ++ "|\n".toList else []) ++
  (if m.Tags.length > 0 then "|Tags|".toList ++ Join m.Tags ", ".toList ++ "|\n".toList
    else []) ++
  (if m.Accept.length > 0 then "|Accept|".toList ++ Join m.Accept ", ".toList ++ "|\n".toList
    else []) ++
  (if m.Produce.length > 0 then "|Produce|".toList ++ Join m.Produce ", ".toList ++ "|\n".toList
    else []) ++
  (if m.Params.length > 0 then "|Params".toList ++ paramRows m.Params.length 0 m.Params
    else []) ++
  (if m.Responses.length > 0 then
    "|Responses".toList ++ responseRows m.Params.length 0 m.Responses else [])

/-- The scan loop of `ParseGoFile` over the comment texts of the file, in the
order the two nested `range` loops visit them: `*cmt` panics on a nil result. -/
def scanComments : List Str → List SwagAnnotationComment →
    Except Panic (List SwagAnnotationComment)
  | [], annotatedComments => .ok annotatedComments
  | comment :: rest, annotatedComments =>
    if hasSwaggerAnnotation comment then
      match extractAnnotationComment comment with
      | some cmt => scanComments rest (annotatedComments ++ [cmt])
      | none => .error .nilDereference
    else scanComments rest annotatedComments

/-- The function `ParseGoFile` after the file has been read and parsed, over the
comment texts of the file and the content of the output stream (the output file
opens and the write succeeds): the result is the new content of the stream. -/
def ParseGoFile (upperCase : Char → Char) (comments : List Str) (output : Str) :
    Except Panic Str :=
  match scanComments comments [] with
  | .error e => .error e
  | .ok annotatedComments =>
    if annotatedComments.length > 0 then
      match NewMarkdownAPISpec annotatedComments with
      | .error e => .error e
      | .ok mdSpec => .ok (output ++ (mdSpec.String upperCase ++ "\n".toList))
    else .ok output

/-! ## Vocabulary of the statements and of the proofs -/

/-- The keywords of the alternation in the two annotation patterns. -/
def tagKeywords : List Str :=
  ["Summary".toList, "Description".toList, "Tags".toList, "Accept".toList,
   "Produce".toList, "Param".toList, "Success".toList, "Router".toList]

/-- The text of a line: everything up to the next newline. -/
def lineOf (s : Str) : Str :=
  s.takeWhile isDot

/-- The pending field, if any, as a list of fields. -/
def flushField (cur : Str) : List Str :=
  if cur = [] then [] else [cur]

/-- Split a text into its whitespace-separated fields; `cur` is the field being read. -/
def fieldsAux : Str → Str → List Str
  | [], cur => flushField cur
  | c :: s, cur =>
    if isSpaceClass c then flushField cur ++ fieldsAux s [] else fieldsAux s (cur ++ [c])

/-- The cell of a parameter row with its end of line, as the format string of the
Params loop lays it out after the borders. -/
def paramCell (param : MarkdownParam) : Str :=
  "**".toList ++ param.Name ++ "** ".toList ++ param.In ++ " \x7b".toList ++ param.Type_ ++
    "\x7d ".toList ++ (if param.Required then "required".toList else "optional".toList) ++
    " ".toList ++ paramDash ++ " ".toList ++ param.Description ++ "|\n".toList

/-- A line `|label|value|` of the table, left out when the value is empty. -/
def optLine (label value : Str) : Str :=
  if value = [] then [] else "|".toList ++ label ++ "|".toList ++ value ++ "|\n".toList

/-- A line `|label|v1, v2, ...|` of the table, left out when the list is empty. -/
def listLine (label : Str) (values : List Str) : Str :=
  if values = [] then []
  else "|".toList ++ label ++ "|".toList ++ Join values ", ".toList ++ "|\n".toList

/-- The lines that precede the Params block: the header, the separator and one
line for each of summary, description, tags, accept and produce that is not
empty, in this order. -/
def headLines (upperCase : Char → Char) (m : MarkdownAPISpec) : Str :=
  "|".toList ++ ToUpper upperCase m.Method ++ "|".toList ++ m.Path ++ "|\n".toList ++
  "| --- | --- |\n".toList ++
  optLine "summary".toList m.Summary ++ optLine "description".toList m.Description ++
  listLine "Tags".toList m.Tags ++ listLine "Accept".toList m.Accept ++
  listLine "Produce".toList m.Produce

/-- The texts of the annotations that carry the tag `tag`, in order. -/
def textsOf (tag : Str) (anns : List SwagAnnotationComment) : List Str :=
  (anns.filter (fun a => a.CommentType = tag)).map (fun a => a.CommentText)

/-- The parameters `NewMarkdownParam` accepts among the Param annotations, in order. -/
def paramsOf (anns : List SwagAnnotationComment) : List MarkdownParam :=
  anns.filterMap (fun a =>
    if a.CommentType = "Param".toList then NewMarkdownParam a.CommentText else none)

/-- The responses `NewMarkdownResponse` accepts among the Success and Failure
annotations, in order. -/
def responsesOf (anns : List SwagAnnotationComment) : List MarkdownResponse :=
  anns.filterMap (fun a =>
    if a.CommentType = "Success".toList ∨ a.CommentType = "Failure".toList then
      NewMarkdownResponse a.CommentText
    else none)

/-- The results of `parseRouter` on the Router annotations, in order. -/
def routesOf (anns : List SwagAnnotationComment) : List (Str × Str) :=
  anns.filterMap (fun a =>
    if a.CommentType = "Router".toList then
      match parseRouter a.CommentText with
      | .ok r => some r
      | .error _ => none
    else none)

/-- Every Router annotation of the sequence has a text `parseRouter` accepts. -/
def routersWellFormed (anns : List SwagAnnotationComment) : Prop :=
  ∀ a ∈ anns, a.CommentType = "Router".toList → ∃ r, parseRouter a.CommentText = .ok r

/-- A parameter used to instantiate the statements on the renderer. -/
def sampleParam : MarkdownParam :=
  { Name := "id".toList, In := "path".toList, Required := true, Type_ := "int".toList,
    Description := "user identifier".toList }

/-- A record with three params and no response. -/
def sampleSpec : MarkdownAPISpec :=
  { emptySpec with Method := "get".toList, Path := "/users".toList,
                   Params := [sampleParam, sampleParam, sampleParam] }

/-- An annotation sequence with repeated tags, a rejected Param text, a rejected
Failure text, two Summary annotations and two Router annotations. -/
def sampleAnnotations : List SwagAnnotationComment :=
  [⟨"Tags".toList, "users".toList⟩, ⟨"Summary".toList, "first".toList⟩,
   ⟨"Param".toList, "id path int true user id".toList⟩, ⟨"Param".toList, "broken".toList⟩,
   ⟨"Accept".toList, "json".toList⟩, ⟨"Router".toList, "/old get".toList⟩,
   ⟨"Tags".toList, "users".toList⟩, ⟨"Success".toList, "200 ok".toList⟩,
   ⟨"Failure".toList, "bad".toList⟩, ⟨"Produce".toList, "json".toList⟩,
   ⟨"Summary".toList, "second".toList⟩, ⟨"Router".toList, "/users post".toList⟩]

/-! ## Facts about the character classes -/

theorem isSpace_space : isSpace ' ' = true := by decide

theorem isAlnum_not_space {c : Char} (h : isAlnum c = true) : isSpaceClass c = false := by
  revert h
  simp only [isAlnum, isSpaceClass]
  generalize c.toNat = a
  intro h
  simp at h ⊢
  omega

theorem isDot_of_ne {c : Char} (h : c ≠ '\n') : isDot c = true := by
  simp only [isDot, bne_iff_ne, ne_eq]
  intro hc
  apply h
  have := Char.ofNat_toNat c
  rw [hc] at this
  exact this.symm

theorem isSpace_of_isSpaceClass {c : Char} (h : isSpaceClass c = true) : isSpace c = true := by
  revert h
  simp only [isSpaceClass, isSpace]
  generalize c.toNat = a
  intro h
  simp at h ⊢
  omega

theorem isDot_of_not_isSpace {c : Char} (h : isSpace c = false) : isDot c = true := by
  revert h
  simp only [isDot, isSpace]
  generalize c.toNat = a
  intro h
  simp at h ⊢
  omega

theorem isDot_of_not_isSpaceClass {c : Char} (h : isSpaceClass c = false) : isDot c = true := by
  revert h
  simp only [isDot, isSpaceClass]
  generalize c.toNat = a
  intro h
  simp at h ⊢
  omega

theorem flag_chars {g : Str} (hg : g = "true".toList ∨ g = "false".toList) :
    g ≠ [] ∧ (∀ c ∈ g, isSpaceClass c = false) ∧ (∀ c ∈ g, isAlnum c = true) := by
  rcases hg with rfl | rfl <;> decide

/-! ## The matcher along its greedy path -/

theorem stripLit_append (w s : Str) : stripLit w (w ++ s) = some s := by
  induction w with
  | nil => rfl
  | cons c w ih => simp [stripLit, ih]

theorem starGo_stop {α : Type} (p : Char → Bool) (k : Nat → Str → Option α) (pos : Nat)
    (rest : Str) (h : ∀ c ∈ rest.head?, p c = false) : starGo p k pos rest = k pos rest := by
  cases rest with
  | nil => rfl
  | cons c s =>
    have hc : p c = false := h c (by simp)
    simp [starGo, hc]

theorem starGo_append {α : Type} (p : Char → Bool) (k : Nat → Str → Option α) (xs rest : Str)
    (r : α) (hxs : ∀ c ∈ xs, p c = true) (pos : Nat)
    (h : starGo p k (pos + xs.length) rest = some r) :
    starGo p k pos (xs ++ rest) = some r := by
  induction xs generalizing pos with
  | nil => simpa using h
  | cons c xs ih =>
    have hc : p c = true := hxs c (List.mem_cons_self _ _)
    have h2 : starGo p k (pos + 1) (xs ++ rest) = some r := by
      apply ih (fun d hd => hxs d (List.mem_cons_of_mem _ hd))
      rw [← h]
      congr 1
      simp only [List.length_cons]
      omega
    simp [starGo, hc, h2]

theorem starGo_greedy {α : Type} (p : Char → Bool) (k : Nat → Str → Option α) (xs rest : Str)
    (r : α) (pos : Nat) (hxs : ∀ c ∈ xs, p c = true) (hrest : ∀ c ∈ rest.head?, p c = false)
    (h : k (pos + xs.length) rest = some r) :
    starGo p k pos (xs ++ rest) = some r := by
  apply starGo_append p k xs rest r hxs
  rw [starGo_stop p k _ rest hrest]
  exact h

theorem run_lit {α : Type} (w s : Str) (pos : Nat) (caps : Caps)
    (k : Nat → Str → Caps → Option α) :
    (Re.lit w).run pos (w ++ s) caps k = k (pos + w.length) s caps := by
  simp [Re.run, stripLit_append]

theorem run_seq {α : Type} (a b : Re) (pos : Nat) (s : Str) (caps : Caps)
    (k : Nat → Str → Caps → Option α) :
    (Re.seq a b).run pos s caps k
      = a.run pos s caps (fun pos' s' caps' => b.run pos' s' caps' k) := rfl

theorem run_group {α : Type} (i : Nat) (a : Re) (pos : Nat) (s : Str) (caps : Caps)
    (k : Nat → Str → Caps → Option α) :
    (Re.group i a).run pos s caps k
      = a.run pos s caps (fun pos' s' caps' => k pos' s' ((i, s.take (pos' - pos)) :: caps')) :=
  rfl

theorem run_star_greedy {α : Type} (p : Char → Bool) (xs rest : Str) (pos : Nat) (caps : Caps)
    (k : Nat → Str → Caps → Option α) (r : α)
    (hxs : ∀ c ∈ xs, p c = true) (hrest : ∀ c ∈ rest.head?, p c = false)
    (h : k (pos + xs.length) rest caps = some r) :
    (Re.star p).run pos (xs ++ rest) caps k = some r := by
  simp only [Re.run]
  exact starGo_greedy p _ xs rest r pos hxs hrest h

theorem run_plus_greedy {α : Type} (p : Char → Bool) (xs rest : Str) (pos : Nat) (caps : Caps)
    (k : Nat → Str → Caps → Option α) (r : α)
    (hne : xs ≠ []) (hxs : ∀ c ∈ xs, p c = true) (hrest : ∀ c ∈ rest.head?, p c = false)
    (h : k (pos + xs.length) rest caps = some r) :
    (Re.plus p).run pos (xs ++ rest) caps k = some r := by
  cases xs with
  | nil => exact absurd rfl hne
  | cons c xs =>
    have hc : p c = true := hxs c (List.mem_cons_self _ _)
    simp only [List.cons_append, Re.run, hc, if_true]
    apply starGo_greedy p _ xs rest r (pos + 1) (fun d hd => hxs d (List.mem_cons_of_mem _ hd)) hrest
    rw [← h]
    congr 1
    simp only [List.length_cons]
    omega

theorem run_star_all {α : Type} (p : Char → Bool) (xs : Str) (pos : Nat) (caps : Caps)
    (k : Nat → Str → Caps → Option α) (r : α)
    (hxs : ∀ c ∈ xs, p c = true) (h : k (pos + xs.length) [] caps = some r) :
    (Re.star p).run pos xs caps k = some r := by
  have := run_star_greedy p xs [] pos caps k r hxs (by simp) h
  simpa using this

theorem run_alt_left {α : Type} (a b : Re) (pos : Nat) (s : Str) (caps : Caps)
    (k : Nat → Str → Caps → Option α) (r : α) (h : a.run pos s caps k = some r) :
    (Re.alt a b).run pos s caps k = some r := by
  simp [Re.run, h]

theorem run_alt_right {α : Type} (a b : Re) (pos : Nat) (s : Str) (caps : Caps)
    (k : Nat → Str → Caps → Option α) (h : a.run pos s caps k = none) :
    (Re.alt a b).run pos s caps k = b.run pos s caps k := by
  simp [Re.run, h]

theorem head_append_of_ne {xs : Str} (rest : Str) (p : Char → Bool) (hne : xs ≠ [])
    (h : ∀ c ∈ xs, p c = false) : ∀ c ∈ (xs ++ rest).head?, p c = false := by
  cases xs with
  | nil => exact absurd rfl hne
  | cons x xs =>
    intro c hc
    simp at hc
    subst hc
    exact h _ (List.mem_cons_self _ _)

theorem searchFrom_of_matchAt (re : Re) (pos : Nat) (s : Str) (caps : Caps)
    (h : matchAt re pos s = some caps) : searchFrom re pos s = some caps := by
  cases s with
  | nil => simpa [searchFrom] using h
  | cons c s => simp [searchFrom, h]

theorem searchFrom_skip (re : Re) (pre s : Str) (pos : Nat)
    (h : ∀ p q, pre = p ++ q → q ≠ [] → matchAt re (pos + p.length) (q ++ s) = none) :
    searchFrom re pos (pre ++ s) = searchFrom re (pos + pre.length) s := by
  induction pre generalizing pos with
  | nil => rfl
  | cons c pre ih =>
    have h0 : matchAt re pos (c :: (pre ++ s)) = none := by
      have := h [] (c :: pre) rfl (by simp)
      simpa using this
    have h1 : searchFrom re (pos + 1) (pre ++ s) = searchFrom re (pos + 1 + pre.length) s := by
      apply ih
      intro p q hpq hq
      have := h (c :: p) q (by rw [hpq]; rfl) hq
      rw [← this]
      congr 1
      simp only [List.length_cons]
      omega
    have h01 : searchFrom re pos (c :: (pre ++ s)) = searchFrom re (pos + 1) (pre ++ s) := by
      simp only [searchFrom, h0]
    have e : pos + 1 + pre.length = pos + (pre.length + 1) := by omega
    rw [List.cons_append, h01, h1, List.length_cons, e]

theorem searchFrom_isSome_of_matchAt (re : Re) (pre s : Str) (pos : Nat) (caps : Caps)
    (h : matchAt re (pos + pre.length) s = some caps) :
    ∃ caps', searchFrom re pos (pre ++ s) = some caps' := by
  induction pre generalizing pos with
  | nil => exact ⟨caps, searchFrom_of_matchAt _ _ _ _ (by simpa using h)⟩
  | cons c pre ih =>
    rw [List.cons_append, searchFrom]
    cases hm : matchAt re pos (c :: (pre ++ s)) with
    | some caps' => exact ⟨caps', rfl⟩
    | none =>
      apply ih (pos + 1)
      rw [← h]
      congr 1
      simp only [List.length_cons]
      omega

/-! ## What a successful match says about the text -/

theorem stripLit_eq_some (w s r : Str) (h : stripLit w s = some r) : s = w ++ r := by
  induction w generalizing s with
  | nil =>
    simp only [stripLit, Option.some.injEq] at h
    simp [h]
  | cons c w ih =>
    cases s with
    | nil => simp [stripLit] at h
    | cons d s =>
      by_cases hcd : c = d
      · subst hcd
        simp only [stripLit, if_true] at h
        simp [ih s h]
      · simp [stripLit, hcd] at h

theorem stripLit_none_of_no_split (w s : Str) (h : ∀ r, s ≠ w ++ r) : stripLit w s = none := by
  cases hs : stripLit w s with
  | none => rfl
  | some r => exact absurd (stripLit_eq_some w s r hs) (h r)

theorem starGo_inv {α : Type} (p : Char → Bool) (k : Nat → Str → Option α) (s : Str) (pos : Nat)
    (r : α) (h : starGo p k pos s = some r) :
    ∃ xs rest, s = xs ++ rest ∧ (∀ c ∈ xs, p c = true) ∧ k (pos + xs.length) rest = some r := by
  induction s generalizing pos with
  | nil => exact ⟨[], [], rfl, by simp, by simpa [starGo] using h⟩
  | cons c s ih =>
    by_cases hc : p c = true
    · simp only [starGo, hc, if_true] at h
      cases hs : starGo p k (pos + 1) s with
      | some r' =>
        rw [hs] at h
        obtain ⟨xs, rest, e, hxs, hk⟩ := ih (pos + 1) (by rw [hs]; exact h)
        refine ⟨c :: xs, rest, by simp [e], ?_, ?_⟩
        · intro d hd
          rcases List.mem_cons.mp hd with h1 | h1
          · rw [h1]; exact hc
          · exact hxs d h1
        · rw [← hk]
          congr 1
          simp only [List.length_cons]
          omega
      | none =>
        rw [hs] at h
        exact ⟨[], c :: s, rfl, by simp, by simpa using h⟩
    · simp only [starGo, hc] at h
      exact ⟨[], c :: s, rfl, by simp, by simpa using h⟩

theorem run_star_inv {α : Type} (p : Char → Bool) (pos : Nat) (s : Str) (caps : Caps)
    (k : Nat → Str → Caps → Option α) (r : α) (h : (Re.star p).run pos s caps k = some r) :
    ∃ xs rest, s = xs ++ rest ∧ (∀ c ∈ xs, p c = true) ∧
      k (pos + xs.length) rest caps = some r :=
  starGo_inv p _ s pos r h

theorem run_plus_inv {α : Type} (p : Char → Bool) (pos : Nat) (s : Str) (caps : Caps)
    (k : Nat → Str → Caps → Option α) (r : α) (h : (Re.plus p).run pos s caps k = some r) :
    ∃ xs rest, s = xs ++ rest ∧ xs ≠ [] ∧ (∀ c ∈ xs, p c = true) ∧
      k (pos + xs.length) rest caps = some r := by
  cases s with
  | nil => simp [Re.run] at h
  | cons c s =>
    by_cases hc : p c = true
    · simp only [Re.run, hc, if_true] at h
      obtain ⟨xs, rest, e, hxs, hk⟩ := starGo_inv p _ s (pos + 1) r h
      refine ⟨c :: xs, rest, by simp [e], by simp, ?_, ?_⟩
      · intro d hd
        rcases List.mem_cons.mp hd with h1 | h1
        · rw [h1]; exact hc
        · exact hxs d h1
      · rw [← hk]
        congr 1
        simp only [List.length_cons]
        omega
    · simp [Re.run, hc] at h

theorem run_lit_inv {α : Type} (w : Str) (pos : Nat) (s : Str) (caps : Caps)
    (k : Nat → Str → Caps → Option α) (r : α) (h : (Re.lit w).run pos s caps k = some r) :
    ∃ rest, s = w ++ rest ∧ k (pos + w.length) rest caps = some r := by
  simp only [Re.run] at h
  cases hs : stripLit w s with
  | none => simp [hs] at h
  | some s' =>
    rw [hs] at h
    exact ⟨s', stripLit_eq_some w s s' hs, h⟩

theorem run_alt_inv {α : Type} (a b : Re) (pos : Nat) (s : Str) (caps : Caps)
    (k : Nat → Str → Caps → Option α) (r : α) (h : (Re.alt a b).run pos s caps k = some r) :
    a.run pos s caps k = some r ∨ b.run pos s caps k = some r := by
  simp only [Re.run] at h
  cases ha : a.run pos s caps k with
  | none => rw [ha] at h; exact Or.inr h
  | some r' => rw [ha] at h; exact Or.inl h

theorem searchFrom_inv (re : Re) (s : Str) (pos : Nat) (caps : Caps)
    (h : searchFrom re pos s = some caps) :
    ∃ pre rest, s = pre ++ rest ∧ matchAt re (pos + pre.length) rest = some caps := by
  induction s generalizing pos with
  | nil => exact ⟨[], [], rfl, by simpa [searchFrom] using h⟩
  | cons c s ih =>
    simp only [searchFrom] at h
    cases hm : matchAt re pos (c :: s) with
    | some caps' =>
      rw [hm] at h
      exact ⟨[], c :: s, rfl, by simpa [hm] using h⟩
    | none =>
      rw [hm] at h
      obtain ⟨pre, rest, e, hk⟩ := ih (pos + 1) h
      refine ⟨c :: pre, rest, by simp [e], ?_⟩
      rw [← hk]
      congr 1
      simp only [List.length_cons]
      omega

/-! ## The annotation patterns -/

theorem tagAlternation_run_none {α : Type} (pos : Nat) (s : Str) (caps : Caps)
    (k : Nat → Str → Caps → Option α)
    (h : ∀ kw ∈ tagKeywords, ∀ r, s ≠ kw ++ r) : tagAlternation.run pos s caps k = none := by
  have h1 := stripLit_none_of_no_split "Summary".toList s (h _ (by simp [tagKeywords]))
  have h2 := stripLit_none_of_no_split "Description".toList s (h _ (by simp [tagKeywords]))
  have h3 := stripLit_none_of_no_split "Tags".toList s (h _ (by simp [tagKeywords]))
  have h4 := stripLit_none_of_no_split "Accept".toList s (h _ (by simp [tagKeywords]))
  have h5 := stripLit_none_of_no_split "Produce".toList s (h _ (by simp [tagKeywords]))
  have h6 := stripLit_none_of_no_split "Param".toList s (h _ (by simp [tagKeywords]))
  have h7 := stripLit_none_of_no_split "Success".toList s (h _ (by simp [tagKeywords]))
  have h8 := stripLit_none_of_no_split "Router".toList s (h _ (by simp [tagKeywords]))
  simp only [tagAlternation, Re.run, h1, h2, h3, h4, h5, h6, h7, h8]

theorem tagAlternation_run_keyword {α : Type} (kw rest : Str) (pos : Nat) (caps : Caps)
    (k : Nat → Str → Caps → Option α) (r : α) (hkw : kw ∈ tagKeywords)
    (h : k (pos + kw.length) rest ((1, kw) :: caps) = some r) :
    tagAlternation.run pos (kw ++ rest) caps k = some r := by
  simp only [tagKeywords, List.mem_cons, List.mem_singleton, List.not_mem_nil, or_false] at hkw
  rw [tagAlternation, run_group]
  rcases hkw with rfl | rfl | rfl | rfl | rfl | rfl | rfl | rfl
  all_goals
    simp [Re.run, stripLit] at h ⊢
    simp [h]

theorem textRegex_matchAt_none (pos : Nat) (s : Str)
    (h : ∀ kw ∈ tagKeywords, ∀ r, s ≠ '@' :: (kw ++ r)) : matchAt textRegex pos s = none := by
  rw [matchAt, textRegex, run_group, run_seq]
  cases s with
  | nil => simp [Re.run, stripLit]
  | cons c s =>
    by_cases hc : c = '@'
    · subst hc
      have := run_lit (α := Caps) ['@'] s
      simp only [List.singleton_append] at this
      rw [this, run_seq]
      apply tagAlternation_run_none
      intro kw hkw r hr
      exact h kw hkw r (by rw [hr])
    · have hc2 : ¬ '@' = c := fun e => hc e.symm
      simp [Re.run, stripLit, hc2]

theorem textRegex_matchAt (kw ws body : Str) (pos : Nat) (hkw : kw ∈ tagKeywords)
    (hws : ws ≠ []) (hwsa : ∀ c ∈ ws, isSpaceClass c = true)
    (hbody : ∀ c ∈ body.head?, isSpaceClass c = false) :
    ∃ w, matchAt textRegex pos ('@' :: (kw ++ (ws ++ body)))
      = some [(0, w), (2, lineOf body), (1, kw)] := by
  refine ⟨List.take (1 + kw.length + ws.length + (lineOf body).length)
    ('@' :: (kw ++ (ws ++ body))), ?_⟩
  have hsplit : body = lineOf body ++ body.dropWhile isDot := by
    simp [lineOf]
  have hline : ∀ c ∈ lineOf body, isDot c = true := by
    intro c hc
    exact List.mem_takeWhile_imp hc
  have hrest : ∀ c ∈ (body.dropWhile isDot).head?, isDot c = false := by
    intro c hc
    have := List.head?_dropWhile_not isDot body
    rw [Option.mem_def.mp hc] at this
    simpa using this
  rw [matchAt, textRegex, run_group, run_seq]
  have hl := run_lit (α := Caps) ['@'] (kw ++ (ws ++ body))
  simp only [List.singleton_append] at hl
  rw [hl, run_seq]
  apply tagAlternation_run_keyword kw _ _ _ _ _ hkw
  rw [run_seq]
  apply run_plus_greedy isSpaceClass ws _ _ _ _ _ hws hwsa hbody
  rw [run_group]
  conv => lhs; arg 3; rw [hsplit]
  apply run_star_greedy isDot (lineOf body) _ _ _ _ _ hline hrest
  have e1 : pos + ['@'].length + kw.length + ws.length + (lineOf body).length - pos
      = 1 + kw.length + ws.length + (lineOf body).length := by
    simp only [List.length_singleton]
    omega
  have e2 : pos + ['@'].length + kw.length + ws.length + (lineOf body).length
      - (pos + ['@'].length + kw.length + ws.length) = (lineOf body).length := by
    omega
  have e3 : List.take (lineOf body).length body = lineOf body := by
    conv => lhs; arg 2; rw [hsplit]
    exact List.take_left _ _
  rw [e1, e2, e3]

theorem extractAnnotationComment_of_caps (comment w kw text : Str)
    (h : searchFrom textRegex 0 comment = some [(0, w), (2, text), (1, kw)]) :
    extractAnnotationComment comment = some ⟨kw, text⟩ := by
  have hg : textRegex.numGroups = 2 := rfl
  simp [extractAnnotationComment, FindStringSubmatch, h, hg, List.range_succ, capture, List.find?]

theorem extractAnnotationComment_first (pre kw ws body : Str)
    (hkw : kw ∈ tagKeywords)
    (hfirst : ∀ p k q, k ∈ tagKeywords →
      pre ++ '@' :: (kw ++ (ws ++ body)) = p ++ '@' :: (k ++ q) → pre.length ≤ p.length)
    (hws : ws ≠ []) (hwsa : ∀ c ∈ ws, isSpaceClass c = true)
    (hbody : ∀ c ∈ body.head?, isSpaceClass c = false) :
    extractAnnotationComment (pre ++ '@' :: (kw ++ (ws ++ body)))
      = some { CommentType := kw, CommentText := lineOf body } := by
  obtain ⟨w, hw⟩ := textRegex_matchAt kw ws body (0 + pre.length) hkw hws hwsa hbody
  apply extractAnnotationComment_of_caps _ w
  rw [searchFrom_skip]
  · exact searchFrom_of_matchAt _ _ _ _ hw
  · intro p q hpq hq
    apply textRegex_matchAt_none
    intro k hk r hr
    have := hfirst p k r hk (by rw [hpq, List.append_assoc, hr])
    have hlen : pre.length = p.length + q.length := by rw [hpq, List.length_append]
    have hq0 : 0 < q.length := List.length_pos.mpr hq
    omega

theorem lineOf_eq_self (s : Str) (h : ∀ c ∈ s, isDot c = true) : lineOf s = s := by
  rw [lineOf, List.takeWhile_eq_self_iff]
  exact h

theorem extract_line_comment (kw body : Str) (hkw : kw ∈ tagKeywords)
    (hbody : ∀ c ∈ body.head?, isSpaceClass c = false) :
    extractAnnotationComment ("// @".toList ++ (kw ++ ' ' :: body))
      = some { CommentType := kw, CommentText := lineOf body } := by
  have := extractAnnotationComment_first "// ".toList kw [' '] body hkw ?_ (by simp)
    (by simp; decide) hbody
  · simpa using this
  · intro p k q _ e
    rcases p with _ | ⟨a, _ | ⟨b, _ | ⟨c, p⟩⟩⟩
    · simp at e
    · simp at e
    · simp at e
    · simp

theorem scanComments_filter (cs : List Str) (acc : List SwagAnnotationComment) :
    scanComments cs acc = scanComments (cs.filter hasSwaggerAnnotation) acc := by
  induction cs generalizing acc with
  | nil => rfl
  | cons c cs ih =>
    by_cases hc : hasSwaggerAnnotation c = true
    · simp only [List.filter_cons, hc, if_true, scanComments]
      cases extractAnnotationComment c with
      | none => rfl
      | some cmt => exact ih _
    · simp only [List.filter_cons, hc, scanComments]
      exact ih _

theorem annotationRegex_matchAt_none (pos : Nat) (s : Str)
    (h : ∀ kw ∈ tagKeywords, ∀ r, s ≠ '@' :: (kw ++ r)) :
    matchAt annotationRegex pos s = none := by
  rw [matchAt, annotationRegex, run_group, run_seq]
  cases s with
  | nil => simp [Re.run, stripLit]
  | cons c s =>
    by_cases hc : c = '@'
    · subst hc
      have := run_lit (α := Caps) ['@'] s
      simp only [List.singleton_append] at this
      rw [this]
      apply tagAlternation_run_none
      intro kw hkw r hr
      exact h kw hkw r (by rw [hr])
    · have hc2 : ¬ '@' = c := fun e => hc e.symm
      simp [Re.run, stripLit, hc2]

theorem annotationRegex_matchAt (kw r : Str) (pos : Nat) (hkw : kw ∈ tagKeywords) :
    ∃ caps, matchAt annotationRegex pos ('@' :: (kw ++ r)) = some caps := by
  refine ⟨[(0, List.take (1 + kw.length) ('@' :: (kw ++ r))), (1, kw)], ?_⟩
  rw [matchAt, annotationRegex, run_group, run_seq]
  have hl := run_lit (α := Caps) ['@'] (kw ++ r)
  simp only [List.singleton_append] at hl
  rw [hl]
  apply tagAlternation_run_keyword kw _ _ _ _ _ hkw
  have e : pos + ['@'].length + kw.length - pos = 1 + kw.length := by
    simp only [List.length_singleton]
    omega
  rw [e]

/-- The comments `hasSwaggerAnnotation` detects: those that contain `@` directly
followed by one of the eight keywords of the pattern. -/
theorem hasSwaggerAnnotation_iff (comment : Str) :
    hasSwaggerAnnotation comment = true ↔
      ∃ p kw q, kw ∈ tagKeywords ∧ comment = p ++ '@' :: (kw ++ q) := by
  constructor
  · intro h
    rw [ hasSwaggerAnnotation, MatchString, Option.isSome_iff_exists] at h
    obtain ⟨caps, hs⟩ := h
    obtain ⟨pre, rest, e, hm⟩ := searchFrom_inv _ _ _ _ hs
    by_contra hno
    have : matchAt annotationRegex (0 + pre.length) rest = none := by
      apply annotationRegex_matchAt_none
      intro kw hkw r hr
      exact hno ⟨pre, kw, r, hkw, by rw [e, hr]⟩
    rw [this] at hm
    exact Option.noConfusion hm
  · rintro ⟨p, kw, q, hkw, rfl⟩
    obtain ⟨caps, hm⟩ := annotationRegex_matchAt kw q (0 + p.length) hkw
    obtain ⟨caps', hs⟩ := searchFrom_isSome_of_matchAt annotationRegex p _ 0 _ hm
    rw [ hasSwaggerAnnotation, MatchString, hs]
    rfl

/-! ## The parameter pattern -/

theorem paramRegex_matchAt (n w1 l w2 t w3 f w4 d : Str) (pos : Nat)
    (hn : n ≠ []) (hna : ∀ c ∈ n, isAlnum c = true)
    (hl : l ≠ []) (hla : ∀ c ∈ l, isAlnum c = true)
    (ht : t ≠ []) (hta : ∀ c ∈ t, isAlnum c = true)
    (hf : f = "true".toList ∨ f = "false".toList)
    (hw1 : w1 ≠ []) (hw1a : ∀ c ∈ w1, isSpaceClass c = true)
    (hw2 : w2 ≠ []) (hw2a : ∀ c ∈ w2, isSpaceClass c = true)
    (hw3 : w3 ≠ []) (hw3a : ∀ c ∈ w3, isSpaceClass c = true)
    (hw4 : w4 ≠ []) (hw4a : ∀ c ∈ w4, isSpaceClass c = true)
    (hd : ∀ c ∈ d, isDot c = true) (hd0 : ∀ c ∈ d.head?, isSpaceClass c = false) :
    matchAt paramRegex pos (n ++ (w1 ++ (l ++ (w2 ++ (t ++ (w3 ++ (f ++ (w4 ++ d))))))))
      = some [(0, n ++ (w1 ++ (l ++ (w2 ++ (t ++ (w3 ++ (f ++ (w4 ++ d)))))))),
              (5, d), (4, f), (3, t), (2, l), (1, n)] := by
  have hsp : ∀ {x : Str} (y : Str), x ≠ [] → (∀ c ∈ x, isSpaceClass c = true) →
      ∀ c ∈ (x ++ y).head?, isAlnum c = false := by
    intro x y hx hxa c hc
    cases x with
    | nil => exact absurd rfl hx
    | cons a x =>
      simp at hc
      subst hc
      have h1 := hxa a (List.mem_cons_self _ _)
      cases h2 : isAlnum a with
      | false => rfl
      | true => rw [isAlnum_not_space h2] at h1; exact Bool.noConfusion h1
  rw [matchAt, paramRegex, run_group, run_seq, run_group]
  apply run_plus_greedy isAlnum n _ _ _ _ _ hn hna (hsp _ hw1 hw1a)
  simp only [Nat.add_sub_cancel_left, List.take_left]
  rw [run_seq]
  apply run_plus_greedy isSpaceClass w1 _ _ _ _ _ hw1 hw1a
    (head_append_of_ne _ _ hl (fun c hc => isAlnum_not_space (hla c hc)))
  rw [run_seq, run_group]
  apply run_plus_greedy isAlnum l _ _ _ _ _ hl hla (hsp _ hw2 hw2a)
  simp only [Nat.add_sub_cancel_left, List.take_left]
  rw [run_seq]
  apply run_plus_greedy isSpaceClass w2 _ _ _ _ _ hw2 hw2a
    (head_append_of_ne _ _ ht (fun c hc => isAlnum_not_space (hta c hc)))
  rw [run_seq, run_group]
  apply run_plus_greedy isAlnum t _ _ _ _ _ ht hta (hsp _ hw3 hw3a)
  simp only [Nat.add_sub_cancel_left, List.take_left]
  rw [run_seq]
  apply run_plus_greedy isSpaceClass w3 _ _ _ _ _ hw3 hw3a
    (by rcases hf with rfl | rfl <;> simp <;> decide)
  rw [run_seq, run_group]
  have halt : ∀ (p0 : Nat) (cs : Caps) (k : Nat → Str → Caps → Option Caps) (r : Caps),
      k (p0 + f.length) (w4 ++ d) cs = some r →
      ((Re.lit "true".toList).alt (Re.lit "false".toList)).run p0 (f ++ (w4 ++ d)) cs k
        = some r := by
    intro p0 cs k r hk
    rcases hf with rfl | rfl
    · apply run_alt_left
      rw [run_lit]
      exact hk
    · rw [run_alt_right, run_lit]
      · exact hk
      · simp [Re.run, stripLit]
  apply halt
  simp only [Nat.add_sub_cancel_left, List.take_left]
  rw [run_seq]
  apply run_plus_greedy isSpaceClass w4 _ _ _ _ _ hw4 hw4a hd0
  rw [run_group]
  apply run_star_all isDot d _ _ _ _ hd
  simp only [Nat.add_sub_cancel_left, List.take_length, List.append_eq, List.take_left]
  rw [List.take_of_length_le]
  simp only [List.length_append, List.length_cons, List.length_nil]
  omega

theorem NewMarkdownParam_of_caps (text w n l t f d : Str)
    (h : searchFrom paramRegex 0 text = some [(0, w), (5, d), (4, f), (3, t), (2, l), (1, n)]) :
    NewMarkdownParam text = some ⟨n, l, decide (f = "true".toList), t, d⟩ := by
  have hg : paramRegex.numGroups = 5 := rfl
  simp [NewMarkdownParam, FindStringSubmatch, h, hg, List.range_succ, capture, List.find?]

/-- What a match of `paramRegex` says about the text it starts in. -/
theorem paramRegex_inv (pos : Nat) (s : Str) (caps : Caps)
    (h : matchAt paramRegex pos s = some caps) :
    ∃ a1 w1 a2 w2 a3 w3 g w4 rest,
      s = a1 ++ (w1 ++ (a2 ++ (w2 ++ (a3 ++ (w3 ++ (g ++ (w4 ++ rest))))))) ∧
      a1 ≠ [] ∧ (∀ c ∈ a1, isAlnum c = true) ∧
      w1 ≠ [] ∧ (∀ c ∈ w1, isSpaceClass c = true) ∧
      a2 ≠ [] ∧ (∀ c ∈ a2, isAlnum c = true) ∧
      w2 ≠ [] ∧ (∀ c ∈ w2, isSpaceClass c = true) ∧
      a3 ≠ [] ∧ (∀ c ∈ a3, isAlnum c = true) ∧
      w3 ≠ [] ∧ (∀ c ∈ w3, isSpaceClass c = true) ∧
      (g = "true".toList ∨ g = "false".toList) ∧
      w4 ≠ [] ∧ (∀ c ∈ w4, isSpaceClass c = true) := by
  rw [matchAt, paramRegex, run_group, run_seq, run_group] at h
  obtain ⟨a1, r1, e1, ha1, ha1a, h⟩ := run_plus_inv _ _ _ _ _ _ h
  rw [run_seq] at h
  obtain ⟨w1, r2, e2, hw1, hw1a, h⟩ := run_plus_inv _ _ _ _ _ _ h
  rw [run_seq, run_group] at h
  obtain ⟨a2, r3, e3, ha2, ha2a, h⟩ := run_plus_inv _ _ _ _ _ _ h
  rw [run_seq] at h
  obtain ⟨w2, r4, e4, hw2, hw2a, h⟩ := run_plus_inv _ _ _ _ _ _ h
  rw [run_seq, run_group] at h
  obtain ⟨a3, r5, e5, ha3, ha3a, h⟩ := run_plus_inv _ _ _ _ _ _ h
  rw [run_seq] at h
  obtain ⟨w3, r6, e6, hw3, hw3a, h⟩ := run_plus_inv _ _ _ _ _ _ h
  rw [run_seq, run_group] at h
  have hg : ∃ g r7, r6 = g ++ r7 ∧ (g = "true".toList ∨ g = "false".toList) ∧
      ∃ (p7 : Nat) (c7 : Caps),
        ((Re.plus isSpaceClass).seq (Re.group 5 (Re.star isDot))).run p7 r7 c7
          (fun pos' s' caps' => some ((0, List.take (pos' - pos) s) :: caps')) = some caps := by
    rcases run_alt_inv _ _ _ _ _ _ _ h with h' | h'
    · obtain ⟨r7, e7, h''⟩ := run_lit_inv _ _ _ _ _ _ h'
      exact ⟨_, r7, e7, Or.inl rfl, _, _, h''⟩
    · obtain ⟨r7, e7, h''⟩ := run_lit_inv _ _ _ _ _ _ h'
      exact ⟨_, r7, e7, Or.inr rfl, _, _, h''⟩
  obtain ⟨g, r7, e7, hg, p7, c7, h⟩ := hg
  rw [run_seq] at h
  obtain ⟨w4, r8, e8, hw4, hw4a, h⟩ := run_plus_inv _ _ _ _ _ _ h
  refine ⟨a1, w1, a2, w2, a3, w3, g, w4, r8, ?_, ha1, ha1a, hw1, hw1a, ha2, ha2a, hw2, hw2a,
    ha3, ha3a, hw3, hw3a, hg, hw4, hw4a⟩
  rw [e1, e2, e3, e4, e5, e6, e7, e8]

theorem NewMarkdownParam_eq_none_iff (text : Str) :
    NewMarkdownParam text = none ↔ searchFrom paramRegex 0 text = none := by
  have hg : paramRegex.numGroups = 5 := rfl
  cases hs : searchFrom paramRegex 0 text with
  | none => simp [NewMarkdownParam, FindStringSubmatch, hs]
  | some caps =>
    simp [NewMarkdownParam, FindStringSubmatch, hs, hg, List.range_succ]

theorem fieldsAux_cons_space (c : Char) (s cur : Str) (hc : isSpaceClass c = true) :
    fieldsAux (c :: s) cur = flushField cur ++ fieldsAux s [] := by
  simp [fieldsAux, hc]

theorem fieldsAux_cons_nonspace (c : Char) (s cur : Str) (hc : isSpaceClass c = false) :
    fieldsAux (c :: s) cur = fieldsAux s (cur ++ [c]) := by
  simp [fieldsAux, hc]

theorem fieldsAux_nonspace (a s cur : Str) (ha : ∀ c ∈ a, isSpaceClass c = false) :
    fieldsAux (a ++ s) cur = fieldsAux s (cur ++ a) := by
  induction a generalizing cur with
  | nil => simp
  | cons c a ih =>
    have hc : isSpaceClass c = false := ha c (List.mem_cons_self _ _)
    rw [List.cons_append, fieldsAux_cons_nonspace _ _ _ hc,
      ih _ (fun d hd => ha d (List.mem_cons_of_mem _ hd))]
    simp

theorem fieldsAux_space (w s cur : Str) (hw : w ≠ []) (hwa : ∀ c ∈ w, isSpaceClass c = true) :
    fieldsAux (w ++ s) cur = flushField cur ++ fieldsAux s [] := by
  induction w generalizing cur with
  | nil => exact absurd rfl hw
  | cons c w ih =>
    have hc : isSpaceClass c = true := hwa c (List.mem_cons_self _ _)
    rw [List.cons_append, fieldsAux_cons_space _ _ _ hc]
    cases w with
    | nil => rfl
    | cons c' w' =>
      rw [ih [] (by simp) (fun d hd => hwa d (List.mem_cons_of_mem _ hd))]
      simp [flushField]

theorem fieldsAux_cut (x w y cur : Str) (hw : w ≠ []) (hwa : ∀ c ∈ w, isSpaceClass c = true) :
    fieldsAux (x ++ (w ++ y)) cur = fieldsAux x cur ++ fieldsAux y [] := by
  induction x generalizing cur with
  | nil => simpa [fieldsAux] using fieldsAux_space w y cur hw hwa
  | cons c x ih =>
    by_cases hc : isSpaceClass c = true
    · rw [List.cons_append, fieldsAux_cons_space _ _ _ hc, fieldsAux_cons_space _ _ _ hc, ih,
        List.append_assoc]
    · have hc' : isSpaceClass c = false := by simpa using hc
      rw [List.cons_append, fieldsAux_cons_nonspace _ _ _ hc', fieldsAux_cons_nonspace _ _ _ hc',
        ih]

theorem fieldsAux_token (a : Str) (ha : a ≠ []) (haa : ∀ c ∈ a, isSpaceClass c = false) :
    fieldsAux a [] = [a] := by
  have := fieldsAux_nonspace a [] [] haa
  simp only [List.append_nil, List.nil_append] at this
  rw [this]
  simp [fieldsAux, flushField, ha]

theorem fieldsAux_tail_token (pre a cur : Str) (ha : a ≠ [])
    (haa : ∀ c ∈ a, isSpaceClass c = false) :
    ∃ ts u, fieldsAux (pre ++ a) cur = ts ++ [u ++ a] := by
  induction pre generalizing cur with
  | nil =>
    refine ⟨[], cur, ?_⟩
    rw [List.nil_append, ← List.append_nil a, fieldsAux_nonspace a [] cur haa]
    simp [fieldsAux, flushField, ha]
  | cons c pre ih =>
    by_cases hc : isSpaceClass c = true
    · obtain ⟨ts, u, e⟩ := ih []
      refine ⟨flushField cur ++ ts, u, ?_⟩
      rw [List.cons_append, fieldsAux_cons_space _ _ _ hc, e, List.append_assoc]
    · have hc' : isSpaceClass c = false := by simpa using hc
      obtain ⟨ts, u, e⟩ := ih (cur ++ [c])
      refine ⟨ts, u, ?_⟩
      rw [List.cons_append, fieldsAux_cons_nonspace _ _ _ hc', e]

theorem fieldsAux_eq_nil (s cur : Str) (h : fieldsAux s cur = []) :
    cur = [] ∧ ∀ c ∈ s, isSpaceClass c = true := by
  induction s generalizing cur with
  | nil =>
    simp only [fieldsAux, flushField] at h
    by_cases hc : cur = []
    · exact ⟨hc, by simp⟩
    · simp [hc] at h
  | cons c s ih =>
    by_cases hc : isSpaceClass c = true
    · rw [fieldsAux_cons_space _ _ _ hc, List.append_eq_nil] at h
      have h1 : cur = [] := by
        by_cases hcur : cur = []
        · exact hcur
        · have := h.1
          simp [flushField, hcur] at this
      refine ⟨h1, ?_⟩
      intro d hd
      rcases List.mem_cons.mp hd with h2 | h2
      · rw [h2]; exact hc
      · exact (ih [] h.2).2 d h2
    · have hc' : isSpaceClass c = false := by simpa using hc
      rw [fieldsAux_cons_nonspace _ _ _ hc'] at h
      have := (ih _ h).1
      simp at this

theorem paramRegex_no_match (n w1 l w2 t w3 f w4 d : Str)
    (hn : n ≠ []) (hna : ∀ c ∈ n, isSpaceClass c = false)
    (hl : l ≠ []) (hla : ∀ c ∈ l, isSpaceClass c = false)
    (ht : t ≠ []) (hta : ∀ c ∈ t, isSpaceClass c = false)
    (hf : f = "true".toList ∨ f = "false".toList)
    (hd : d ≠ []) (hda : ∀ c ∈ d, isSpaceClass c = false)
    (hw1 : w1 ≠ []) (hw1a : ∀ c ∈ w1, isSpaceClass c = true)
    (hw2 : w2 ≠ []) (hw2a : ∀ c ∈ w2, isSpaceClass c = true)
    (hw3 : w3 ≠ []) (hw3a : ∀ c ∈ w3, isSpaceClass c = true)
    (hw4 : w4 ≠ []) (hw4a : ∀ c ∈ w4, isSpaceClass c = true)
    (pre s : Str) (pos : Nat) (caps : Caps)
    (hT : n ++ (w1 ++ (l ++ (w2 ++ (t ++ (w3 ++ (f ++ (w4 ++ d))))))) = pre ++ s)
    (hm : matchAt paramRegex pos s = some caps) :
    (∀ c ∈ n.getLast?, isAlnum c = true) ∧ (∀ c ∈ l, isAlnum c = true) ∧
      (∀ c ∈ t, isAlnum c = true) := by
  obtain ⟨a1, v1, a2, v2, a3, v3, g, v4, rest, es, ha1, ha1a, hv1, hv1a, ha2, ha2a, hv2, hv2a,
    ha3, ha3a, hv3, hv3a, hg, hv4, hv4a⟩ := paramRegex_inv pos s caps hm
  obtain ⟨hf0, hfa, -⟩ := flag_chars hf
  obtain ⟨hg0, hga, -⟩ := flag_chars hg
  have hF1 : fieldsAux (n ++ (w1 ++ (l ++ (w2 ++ (t ++ (w3 ++ (f ++ (w4 ++ d)))))))) []
      = [n, l, t, f, d] := by
    rw [fieldsAux_cut n w1 _ [] hw1 hw1a, fieldsAux_cut l w2 _ [] hw2 hw2a,
      fieldsAux_cut t w3 _ [] hw3 hw3a, fieldsAux_cut f w4 _ [] hw4 hw4a,
      fieldsAux_token n hn hna, fieldsAux_token l hl hla, fieldsAux_token t ht hta,
      fieldsAux_token f hf0 hfa, fieldsAux_token d hd hda]
    rfl
  obtain ⟨ts, u, hts⟩ := fieldsAux_tail_token pre a1 [] ha1
    (fun c hc => isAlnum_not_space (ha1a c hc))
  have hF2 : fieldsAux (pre ++ s) []
      = ts ++ [u ++ a1] ++ ([a2] ++ ([a3] ++ ([g] ++ fieldsAux rest []))) := by
    have e : pre ++ s = (pre ++ a1) ++ (v1 ++ (a2 ++ (v2 ++ (a3 ++ (v3 ++ (g ++ (v4 ++ rest))))))) := by
      rw [es, List.append_assoc]
    rw [e, fieldsAux_cut (pre ++ a1) v1 _ [] hv1 hv1a, fieldsAux_cut a2 v2 _ [] hv2 hv2a,
      fieldsAux_cut a3 v3 _ [] hv3 hv3a, fieldsAux_cut g v4 _ [] hv4 hv4a, hts,
      fieldsAux_token a2 ha2 (fun c hc => isAlnum_not_space (ha2a c hc)),
      fieldsAux_token a3 ha3 (fun c hc => isAlnum_not_space (ha3a c hc)),
      fieldsAux_token g hg0 hga]
  rw [hT, hF2] at hF1
  rcases ts with _ | ⟨x, _ | ⟨y, ts⟩⟩
  · simp only [List.nil_append, List.singleton_append, List.cons.injEq] at hF1
    obtain ⟨e1, e2, e3, -, -⟩ := hF1
    refine ⟨?_, ?_, ?_⟩
    · rw [← e1, List.getLast?_append_of_ne_nil _ ha1]
      intro c hc
      exact ha1a c (List.mem_of_mem_getLast? hc)
    · rw [← e2]; exact ha2a
    · rw [← e3]; exact ha3a
  · exfalso
    simp only [List.singleton_append, List.cons_append, List.nil_append, List.cons.injEq] at hF1
    obtain ⟨-, -, -, -, hd', hrest⟩ := hF1
    have hrs := (fieldsAux_eq_nil rest [] hrest).2
    have hlast1 : (pre ++ s).getLast? = d.getLast? := by
      rw [← hT]
      have e : n ++ (w1 ++ (l ++ (w2 ++ (t ++ (w3 ++ (f ++ (w4 ++ d)))))))
          = (n ++ (w1 ++ (l ++ (w2 ++ (t ++ (w3 ++ (f ++ w4))))))) ++ d := by
        simp only [List.append_assoc]
      rw [e, List.getLast?_append_of_ne_nil _ hd]
    have hlast2 : (pre ++ s).getLast? = (v4 ++ rest).getLast? := by
      have e : pre ++ s
          = (pre ++ (a1 ++ (v1 ++ (a2 ++ (v2 ++ (a3 ++ (v3 ++ g))))))) ++ (v4 ++ rest) := by
        rw [es]
        simp only [List.append_assoc]
      rw [e, List.getLast?_append_of_ne_nil _ (by simp [hv4])]
    cases hdl : d.getLast? with
    | none => exact hd (List.getLast?_eq_none_iff.mp hdl)
    | some c =>
      have h1 : isSpaceClass c = false := hda c (List.mem_of_mem_getLast? hdl)
      have h2 : c ∈ v4 ++ rest := by
        apply List.mem_of_mem_getLast?
        rw [← hlast2, hlast1, hdl]
        rfl
      have h3 : isSpaceClass c = true := by
        rcases List.mem_append.mp h2 with h | h
        · exact hv4a c h
        · exact hrs c h
      rw [h1] at h3
      exact Bool.noConfusion h3
  · exfalso
    have := congrArg List.length hF1
    simp at this
    omega

/-- No match of `paramRegex` starts inside a run of characters that are not white
space and that ends with a character that is not alphanumeric. -/
theorem paramRegex_matchAt_name_none (q : Str) (x : Char) (s : Str) (pos : Nat)
    (hq : ∀ c ∈ q, isSpaceClass c = false) (hx : isAlnum x = false)
    (hxs : isSpaceClass x = false) : matchAt paramRegex pos (q ++ x :: s) = none := by
  cases hm : matchAt paramRegex pos (q ++ x :: s) with
  | none => rfl
  | some caps =>
    exfalso
    obtain ⟨a1, w1, a2, w2, a3, w3, g, w4, rest, e, -, ha1a, hw1, hw1a, -⟩ :=
      paramRegex_inv _ _ _ hm
    cases w1 with
    | nil => exact hw1 rfl
    | cons h w1 =>
      have hh : isSpaceClass h = true := hw1a h (List.mem_cons_self _ _)
      rcases List.append_eq_append_iff.mp e with ⟨a', e1, e2⟩ | ⟨c', e1, e2⟩
      · cases a' with
        | nil =>
          simp only [List.nil_append, List.cons_append, List.cons.injEq] at e2
          rw [← e2.1, hxs] at hh
          exact Bool.noConfusion hh
        | cons y a' =>
          simp only [List.cons_append, List.cons.injEq] at e2
          have := ha1a x (by rw [e1, e2.1]; simp)
          rw [hx] at this
          exact Bool.noConfusion this
      · cases c' with
        | nil =>
          simp only [List.nil_append, List.cons_append, List.cons.injEq] at e2
          rw [e2.1, hxs] at hh
          exact Bool.noConfusion hh
        | cons y c' =>
          simp only [List.cons_append, List.cons.injEq] at e2
          have := hq y (by rw [e1]; simp)
          rw [← e2.1, hh] at this
          exact Bool.noConfusion this

/-- The search for `paramRegex` passes over a first field that holds a character
which is not alphanumeric: it starts after the last such character. -/
theorem paramRegex_search_name_tail (pre : Str) (x : Char) (s : Str)
    (hpre : ∀ c ∈ pre, isSpaceClass c = false) (hx : isAlnum x = false)
    (hxs : isSpaceClass x = false) :
    searchFrom paramRegex 0 (pre ++ x :: s) = searchFrom paramRegex (0 + (pre ++ [x]).length) s := by
  have e : pre ++ x :: s = (pre ++ [x]) ++ s := by simp
  rw [e]
  apply searchFrom_skip
  intro p q hpq hq
  obtain ⟨q', y, rfl⟩ : ∃ q' y, q = q' ++ [y] :=
    ⟨q.dropLast, q.getLast hq, (List.dropLast_append_getLast hq).symm⟩
  rw [← List.append_assoc] at hpq
  obtain ⟨h1, h2⟩ := List.append_inj' hpq rfl
  simp only [List.cons.injEq, and_true] at h2
  subst h2
  have e2 : (q' ++ [x]) ++ s = q' ++ x :: s := by simp
  rw [e2]
  apply paramRegex_matchAt_name_none _ _ _ _ _ hx hxs
  intro c hc
  exact hpre c (by rw [h1]; simp [hc])

/-- For a text of five fields n, l, t, f, d, each non-empty and free of
white space, separated by non-empty runs of white space, with f `true` or
`false`, `NewMarkdownParam` returns none exactly when the name n ends with a
non-alphanumeric character or the location l or the type t contains one. -/
theorem NewMarkdownParam_tokens_none_iff (n w1 l w2 t w3 f w4 d : Str)
    (hn : n ≠ []) (hna : ∀ c ∈ n, isSpaceClass c = false)
    (hl : l ≠ []) (hla : ∀ c ∈ l, isSpaceClass c = false)
    (ht : t ≠ []) (hta : ∀ c ∈ t, isSpaceClass c = false)
    (hf : f = "true".toList ∨ f = "false".toList)
    (hd : d ≠ []) (hda : ∀ c ∈ d, isSpaceClass c = false)
    (hw1 : w1 ≠ []) (hw1a : ∀ c ∈ w1, isSpaceClass c = true)
    (hw2 : w2 ≠ []) (hw2a : ∀ c ∈ w2, isSpaceClass c = true)
    (hw3 : w3 ≠ []) (hw3a : ∀ c ∈ w3, isSpaceClass c = true)
    (hw4 : w4 ≠ []) (hw4a : ∀ c ∈ w4, isSpaceClass c = true) :
    NewMarkdownParam (n ++ (w1 ++ (l ++ (w2 ++ (t ++ (w3 ++ (f ++ (w4 ++ d)))))))) = none ↔
      ((∃ c ∈ n.getLast?, isAlnum c = false) ∨ (∃ c ∈ l, isAlnum c = false) ∨
        (∃ c ∈ t, isAlnum c = false)) := by
  rw [NewMarkdownParam_eq_none_iff]
  constructor
  · intro hnone
    by_contra hgood
    simp only [not_or, not_exists, not_and, Bool.not_eq_false] at hgood
    obtain ⟨g1, g2, g3⟩ := hgood
    obtain ⟨ini, e⟩ : ∃ ini, n = ini ++ [n.getLast hn] :=
      ⟨n.dropLast, (List.dropLast_append_getLast hn).symm⟩
    have hlast : isAlnum (n.getLast hn) = true :=
      g1 _ (by rw [List.getLast?_eq_getLast _ hn]; rfl)
    have hm := paramRegex_matchAt [n.getLast hn] w1 l w2 t w3 f w4 d (0 + ini.length)
      (by simp) (by simpa using hlast) hl g2 ht g3 hf hw1 hw1a hw2 hw2a hw3 hw3a hw4 hw4a
      (fun c hc => isDot_of_not_isSpaceClass (hda c hc))
      (fun c hc => hda c (List.mem_of_mem_head? hc))
    obtain ⟨caps', hs⟩ := searchFrom_isSome_of_matchAt paramRegex ini _ 0 _ hm
    have e2 : n ++ (w1 ++ (l ++ (w2 ++ (t ++ (w3 ++ (f ++ (w4 ++ d)))))))
        = ini ++ ([n.getLast hn] ++ (w1 ++ (l ++ (w2 ++ (t ++ (w3 ++ (f ++ (w4 ++ d)))))))) := by
      conv => lhs; rw [e]
      simp only [List.append_assoc]
    rw [e2, hs] at hnone
    exact Option.noConfusion hnone
  · intro hbad
    cases hs : searchFrom paramRegex 0
        (n ++ (w1 ++ (l ++ (w2 ++ (t ++ (w3 ++ (f ++ (w4 ++ d)))))))) with
    | none => rfl
    | some caps =>
      exfalso
      obtain ⟨pre, s, e, hm⟩ := searchFrom_inv _ _ _ _ hs
      obtain ⟨g1, g2, g3⟩ := paramRegex_no_match n w1 l w2 t w3 f w4 d hn hna hl hla ht hta hf
        hd hda hw1 hw1a hw2 hw2a hw3 hw3a hw4 hw4a pre s _ caps e hm
      rcases hbad with ⟨c, hc, hb⟩ | ⟨c, hc, hb⟩ | ⟨c, hc, hb⟩
      · rw [g1 c hc] at hb; exact Bool.noConfusion hb
      · rw [g2 c hc] at hb; exact Bool.noConfusion hb
      · rw [g3 c hc] at hb; exact Bool.noConfusion hb

/-! ## The router parser and the assembler -/

theorem cutSpace_none (t : Str) (h : ∀ c ∈ t, c ≠ ' ') : cutSpace t = none := by
  induction t with
  | nil => rfl
  | cons c s ih =>
    have hc : c ≠ ' ' := h c (List.mem_cons_self _ _)
    have hs : cutSpace s = none := ih (fun d hd => h d (List.mem_cons_of_mem _ hd))
    simp [cutSpace, hc, hs]

theorem cutSpace_append (a b : Str) (ha : ∀ c ∈ a, c ≠ ' ') :
    cutSpace (a ++ ' ' :: b) = some (a, b) := by
  induction a with
  | nil => simp [cutSpace]
  | cons c a ih =>
    have hc : c ≠ ' ' := ha c (List.mem_cons_self _ _)
    have := ih (fun d hd => ha d (List.mem_cons_of_mem _ hd))
    simp [cutSpace, hc, this]

theorem dropWhile_leading (p : Char → Bool) (ws rest : Str) (hws : ∀ c ∈ ws, p c = true)
    (hrest : ∀ c ∈ rest.head?, p c = false) : (ws ++ rest).dropWhile p = rest := by
  induction ws with
  | nil =>
    cases rest with
    | nil => rfl
    | cons c r =>
      have : p c = false := hrest c (by simp)
      simp [List.dropWhile, this]
  | cons c ws ih =>
    have hc : p c = true := hws c (List.mem_cons_self _ _)
    simp only [List.cons_append, List.dropWhile, hc]
    exact ih (fun d hd => hws d (List.mem_cons_of_mem _ hd))

theorem TrimSpace_core (a x b : Str) (hx : x ≠ [])
    (ha : ∀ c ∈ a, isSpace c = true) (hb : ∀ c ∈ b, isSpace c = true)
    (hx0 : ∀ c ∈ x.head?, isSpace c = false) (hx1 : ∀ c ∈ x.getLast?, isSpace c = false) :
    TrimSpace (a ++ (x ++ b)) = x := by
  have h1 : (a ++ (x ++ b)).dropWhile isSpace = x ++ b := by
    apply dropWhile_leading _ _ _ ha
    cases x with
    | nil => exact absurd rfl hx
    | cons c x => simpa using hx0
  have h2 : (b.reverse ++ x.reverse).dropWhile isSpace = x.reverse := by
    apply dropWhile_leading
    · intro c hc
      exact hb c (List.mem_reverse.mp hc)
    · rw [List.head?_reverse]
      exact hx1
  rw [TrimSpace, h1, List.reverse_append, h2, List.reverse_reverse]

theorem first_space (w : Str) (h : ' ' ∈ w) :
    ∃ w1 w2, w = w1 ++ ' ' :: w2 ∧ ∀ c ∈ w1, c ≠ ' ' := by
  induction w with
  | nil => simp at h
  | cons c w ih =>
    by_cases hc : c = ' '
    · exact ⟨[], w, by simp [hc], by simp⟩
    · have hw : ' ' ∈ w := by
        rcases List.mem_cons.mp h with h1 | h1
        · exact absurd h1.symm hc
        · exact h1
      obtain ⟨w1, w2, e, h1⟩ := ih hw
      refine ⟨c :: w1, w2, by simp [e], ?_⟩
      intro d hd
      rcases List.mem_cons.mp hd with h2 | h2
      · rw [h2]; exact hc
      · exact h1 d h2

theorem TrimSpace_length_le (s : Str) : (TrimSpace s).length ≤ s.length := by
  rw [TrimSpace, List.length_reverse]
  calc ((s.dropWhile isSpace).reverse.dropWhile isSpace).length
      ≤ (s.dropWhile isSpace).reverse.length := (List.dropWhile_sublist _).length_le
    _ = (s.dropWhile isSpace).length := List.length_reverse _
    _ ≤ s.length := (List.dropWhile_sublist _).length_le

theorem parseRouter_split (p w m : Str)
    (hp : p ≠ []) (hpa : ∀ c ∈ p, isSpace c = false)
    (hw : ∀ c ∈ w, isSpace c = true) (hsp : ' ' ∈ w)
    (hm : m ≠ []) (hm0 : ∀ c ∈ m.head?, isSpace c = false)
    (hm1 : ∀ c ∈ m.getLast?, isSpace c = false) :
    parseRouter (p ++ (w ++ m)) = .ok (p, m) := by
  obtain ⟨w1, w2, e, h1⟩ := first_space w hsp
  subst e
  have hcut : cutSpace ((p ++ w1) ++ ' ' :: (w2 ++ m)) = some (p ++ w1, w2 ++ m) := by
    apply cutSpace_append
    intro c hc heq
    rcases List.mem_append.mp hc with h | h
    · have := hpa c h
      rw [heq, isSpace_space] at this
      exact Bool.noConfusion this
    · exact h1 c h heq
  have hw1 : ∀ c ∈ w1, isSpace c = true := fun c hc => hw c (by simp [hc])
  have hw2 : ∀ c ∈ w2, isSpace c = true := fun c hc => hw c (by simp [hc])
  have ht1 : TrimSpace (p ++ w1) = p := by
    have := TrimSpace_core [] p w1 hp (by simp) hw1
      (fun c hc => hpa c (List.mem_of_mem_head? hc))
      (fun c hc => hpa c (List.mem_of_mem_getLast? hc))
    simpa using this
  have ht2 : TrimSpace (w2 ++ m) = m := by
    have := TrimSpace_core w2 m [] hm hw2 (by simp) hm0 hm1
    simpa using this
  have e2 : p ++ ((w1 ++ ' ' :: w2) ++ m) = (p ++ w1) ++ ' ' :: (w2 ++ m) := by simp
  rw [e2, parseRouter, SplitN2, hcut]
  simp only [ht1, ht2]

theorem assembleStep_error (m : MarkdownAPISpec) (a : SwagAnnotationComment) (e : Panic)
    (h : assembleStep m a = .error e) : e = .indexOutOfRange := by
  cases e with
  | indexOutOfRange => rfl
  | nilDereference =>
    exfalso
    unfold assembleStep at h
    split_ifs at h
    · cases hp : NewMarkdownParam a.CommentText <;> simp [hp] at h
    · cases hp : NewMarkdownResponse a.CommentText <;> simp [hp] at h
    · unfold parseRouter at h
      cases hp : SplitN2 a.CommentText with
      | nil => simp [hp] at h
      | cons p0 r =>
        cases r with
        | nil => simp [hp] at h
        | cons p1 r' => simp [hp] at h

theorem assembleFrom_router_error (t : Str) (ht : parseRouter t = .error .indexOutOfRange)
    (pre post : List SwagAnnotationComment) (m : MarkdownAPISpec) :
    assembleFrom m (pre ++ ⟨"Router".toList, t⟩ :: post) = .error .indexOutOfRange := by
  induction pre generalizing m with
  | nil =>
    have hs : assembleStep m ⟨"Router".toList, t⟩ = .error .indexOutOfRange := by
      simp [assembleStep, ht]
    simp only [List.nil_append, assembleFrom]
    rw [hs]
  | cons a pre ih =>
    simp only [List.cons_append, assembleFrom]
    cases hs : assembleStep m a with
    | ok m' => simpa using ih m'
    | error e => simp [assembleStep_error m a e hs]

/-! ## The renderer -/

theorem String_eq_headLines (upperCase : Char → Char) (m : MarkdownAPISpec) :
    m.String upperCase = headLines upperCase m ++
      (if m.Params.length > 0 then "|Params".toList ++ paramRows m.Params.length 0 m.Params
        else []) ++
      (if m.Responses.length > 0 then
        "|Responses".toList ++ responseRows m.Params.length 0 m.Responses else []) := by
  have e : ∀ {α : Type} (l : List α), (l.length > 0) = (l ≠ []) := by
    intro α l
    cases l <;> simp
  simp only [MarkdownAPISpec.String, headLines, optLine, listLine, e, ne_eq, ite_not,
    List.append_assoc]
  rfl

theorem paramRows_cons (n i : Nat) (p : MarkdownParam) (ps : List MarkdownParam) :
    paramRows n i (p :: ps)
      = (if n > 1 ∧ i > 0 then "||".toList else "|".toList) ++ paramCell p ++
        paramRows n (i + 1) ps := by
  simp only [paramRows, paramCell, List.append_assoc]

theorem paramRows_later (n i : Nat) (ps : List MarkdownParam) (hn : 1 < n) :
    paramRows n (i + 1) ps = (ps.map (fun q => "||".toList ++ paramCell q)).flatten := by
  induction ps generalizing i with
  | nil => rfl
  | cons p ps ih =>
    rw [paramRows_cons, ih]
    simp only [gt_iff_lt, hn, Nat.zero_lt_succ, and_self, if_true, List.map_cons,
      List.flatten_cons, List.append_assoc]

theorem paramRows_block (p : MarkdownParam) (ps : List MarkdownParam) :
    "|Params".toList ++ paramRows (p :: ps).length 0 (p :: ps)
      = ("|Params|".toList ++ paramCell p) ++
        (ps.map (fun q => "||".toList ++ paramCell q)).flatten := by
  cases ps with
  | nil => simp [paramRows, paramCell]
  | cons q qs =>
    have h := paramRows_later (p :: q :: qs).length 0 (q :: qs) (by simp)
    rw [paramRows_cons, h]
    simp

/-! ## The assembler, field by field -/

theorem getLast?_cons_getD {α : Type} (x d : α) (xs : List α) :
    ((x :: xs).getLast?).getD d = (xs.getLast?).getD x := by
  cases xs with
  | nil => rfl
  | cons y ys =>
    obtain ⟨z, hz⟩ : ∃ z, (y :: ys).getLast? = some z :=
      ⟨(y :: ys).getLast (by simp), List.getLast?_eq_getLast _ _⟩
    rw [List.getLast?_cons_cons, hz]
    rfl

theorem getLast?_append_getD {α : Type} (d : α) (xs ys : List α) :
    ((xs ++ ys).getLast?).getD d = (ys.getLast?).getD ((xs.getLast?).getD d) := by
  induction xs generalizing d with
  | nil => rfl
  | cons x xs ih =>
    rw [List.cons_append, getLast?_cons_getD, getLast?_cons_getD, ih]

theorem assembleStep_fields (m0 : MarkdownAPISpec) (a : SwagAnnotationComment)
    (hwf : a.CommentType = "Router".toList → ∃ r, parseRouter a.CommentText = .ok r) :
    ∃ m, assembleStep m0 a = .ok m ∧
      m.Summary = ((textsOf "Summary".toList [a]).getLast?).getD m0.Summary ∧
      m.Description = ((textsOf "Description".toList [a]).getLast?).getD m0.Description ∧
      m.Tags = m0.Tags ++ textsOf "Tags".toList [a] ∧
      m.Accept = m0.Accept ++ textsOf "Accept".toList [a] ∧
      m.Produce = m0.Produce ++ textsOf "Produce".toList [a] ∧
      m.Params = m0.Params ++ paramsOf [a] ∧
      m.Responses = m0.Responses ++ responsesOf [a] ∧
      (m.Path, m.Method) = ((routesOf [a]).getLast?).getD (m0.Path, m0.Method) := by
  obtain ⟨ty, tx⟩ := a
  simp only at hwf
  by_cases h1 : ty = "Summary".toList
  · subst h1
    exact ⟨{ m0 with Summary := tx }, by simp [assembleStep], by simp [textsOf, paramsOf, responsesOf, routesOf]⟩
  by_cases h2 : ty = "Description".toList
  · subst h2
    exact ⟨{ m0 with Description := tx }, by simp [assembleStep], by simp [textsOf, paramsOf, responsesOf, routesOf]⟩
  by_cases h3 : ty = "Tags".toList
  · subst h3
    exact ⟨{ m0 with Tags := m0.Tags ++ [tx] }, by simp [assembleStep], by simp [textsOf, paramsOf, responsesOf, routesOf]⟩
  by_cases h4 : ty = "Accept".toList
  · subst h4
    exact ⟨{ m0 with Accept := m0.Accept ++ [tx] }, by simp [assembleStep], by simp [textsOf, paramsOf, responsesOf, routesOf]⟩
  by_cases h5 : ty = "Produce".toList
  · subst h5
    exact ⟨{ m0 with Produce := m0.Produce ++ [tx] }, by simp [assembleStep], by simp [textsOf, paramsOf, responsesOf, routesOf]⟩
  by_cases h6 : ty = "Param".toList
  · subst h6
    cases hp : NewMarkdownParam tx with
    | none =>
      exact ⟨m0, by simp [assembleStep, hp], by simp [textsOf, paramsOf, responsesOf, routesOf, hp]⟩
    | some p =>
      exact ⟨{ m0 with Params := m0.Params ++ [p] }, by simp [assembleStep, hp], by simp [textsOf, paramsOf, responsesOf, routesOf, hp]⟩
  by_cases h7 : ty = "Success".toList
  · subst h7
    cases hp : NewMarkdownResponse tx with
    | none =>
      exact ⟨m0, by simp [assembleStep, hp], by simp [textsOf, paramsOf, responsesOf, routesOf, hp]⟩
    | some p =>
      exact ⟨{ m0 with Responses := m0.Responses ++ [p] }, by simp [assembleStep, hp], by simp [textsOf, paramsOf, responsesOf, routesOf, hp]⟩
  by_cases h8 : ty = "Failure".toList
  · subst h8
    cases hp : NewMarkdownResponse tx with
    | none =>
      exact ⟨m0, by simp [assembleStep, hp], by simp [textsOf, paramsOf, responsesOf, routesOf, hp]⟩
    | some p =>
      exact ⟨{ m0 with Responses := m0.Responses ++ [p] }, by simp [assembleStep, hp], by simp [textsOf, paramsOf, responsesOf, routesOf, hp]⟩
  by_cases h9 : ty = "Router".toList
  · subst h9
    obtain ⟨⟨path, method⟩, hr⟩ := hwf rfl
    exact ⟨{ m0 with Path := path, Method := method }, by simp [assembleStep, hr], by simp [textsOf, paramsOf, responsesOf, routesOf, hr]⟩
  · refine ⟨m0, ?_, ?_⟩
    · simp only [assembleStep, h1, h2, h3, h4, h5, h6, h7, h8, h9, or_self, if_false]
    · simp only [textsOf, paramsOf, responsesOf, routesOf, List.filter_cons, List.filterMap_cons,
        h1, h2, h3, h4, h5, h6, h7, h8, h9, or_self, decide_False, if_false,
        List.filter_nil, List.map_nil, List.filterMap_nil, List.getLast?_nil, Option.getD_none,
        List.append_nil, and_self, Bool.false_eq_true]

theorem assembleFrom_fields (anns : List SwagAnnotationComment) (m0 : MarkdownAPISpec)
    (hwf : routersWellFormed anns) :
    ∃ m, assembleFrom m0 anns = .ok m ∧
      m.Summary = ((textsOf "Summary".toList anns).getLast?).getD m0.Summary ∧
      m.Description = ((textsOf "Description".toList anns).getLast?).getD m0.Description ∧
      m.Tags = m0.Tags ++ textsOf "Tags".toList anns ∧
      m.Accept = m0.Accept ++ textsOf "Accept".toList anns ∧
      m.Produce = m0.Produce ++ textsOf "Produce".toList anns ∧
      m.Params = m0.Params ++ paramsOf anns ∧
      m.Responses = m0.Responses ++ responsesOf anns ∧
      (m.Path, m.Method) = ((routesOf anns).getLast?).getD (m0.Path, m0.Method) := by
  induction anns generalizing m0 with
  | nil => exact ⟨m0, rfl, by simp [textsOf, paramsOf, responsesOf, routesOf]⟩
  | cons a rest ih =>
    have hwf' : routersWellFormed rest := fun b hb => hwf b (List.mem_cons_of_mem _ hb)
    obtain ⟨m1, hs, s1, s2, s3, s4, s5, s6, s7, s8⟩ :=
      assembleStep_fields m0 a (hwf a (List.mem_cons_self _ _))
    obtain ⟨m, hm, f1, f2, f3, f4, f5, f6, f7, f8⟩ := ih m1 hwf'
    have ht : ∀ tag, textsOf tag (a :: rest) = textsOf tag [a] ++ textsOf tag rest := by
      intro tag
      simp only [textsOf, ← List.map_append, ← List.filter_append, List.singleton_append]
    have hp : paramsOf (a :: rest) = paramsOf [a] ++ paramsOf rest := by
      simp only [paramsOf, ← List.filterMap_append, List.singleton_append]
    have hr : responsesOf (a :: rest) = responsesOf [a] ++ responsesOf rest := by
      simp only [responsesOf, ← List.filterMap_append, List.singleton_append]
    have hro : routesOf (a :: rest) = routesOf [a] ++ routesOf rest := by
      simp only [routesOf, ← List.filterMap_append, List.singleton_append]
    refine ⟨m, ?_, ?_, ?_, ?_, ?_, ?_, ?_, ?_, ?_⟩
    · simp only [assembleFrom, hs, hm]
    · rw [f1, s1, ht, getLast?_append_getD]
    · rw [f2, s2, ht, getLast?_append_getD]
    · rw [f3, s3, ht, List.append_assoc]
    · rw [f4, s4, ht, List.append_assoc]
    · rw [f5, s5, ht, List.append_assoc]
    · rw [f6, s6, hp, List.append_assoc]
    · rw [f7, s7, hr, List.append_assoc]
    · rw [f8, s8, hro, getLast?_append_getD]

theorem routesOf_eq_map (anns : List SwagAnnotationComment) (hwf : routersWellFormed anns) :
    routesOf anns
      = (anns.filter (fun a => a.CommentType = "Router".toList)).map (fun a =>
          match parseRouter a.CommentText with
          | .ok r => r
          | .error _ => ([], [])) := by
  induction anns with
  | nil => rfl
  | cons a rest ih =>
    have ih' := ih (fun b hb => hwf b (List.mem_cons_of_mem _ hb))
    by_cases h : a.CommentType = "Router".toList
    · obtain ⟨r, hr⟩ := hwf a (List.mem_cons_self _ _) h
      have e1 : routesOf (a :: rest) = r :: routesOf rest := by
        simp only [routesOf, List.filterMap_cons, h, if_true, hr]
      rw [e1, ih']
      simp only [List.filter_cons, h, decide_True, if_true, List.map_cons, hr]
    · have e1 : routesOf (a :: rest) = routesOf rest := by
        simp only [routesOf, List.filterMap_cons, h, if_false]
      rw [e1, ih']
      simp only [List.filter_cons, h, decide_False, Bool.false_eq_true, if_false]

theorem last_route (anns : List SwagAnnotationComment) (hwf : routersWellFormed anns)
    (d : Str × Str) (a : SwagAnnotationComment)
    (ha : (anns.filter (fun a => a.CommentType = "Router".toList)).getLast? = some a) :
    parseRouter a.CommentText = .ok (((routesOf anns).getLast?).getD d) := by
  have hmem : a ∈ anns.filter (fun a => a.CommentType = "Router".toList) :=
    List.mem_of_mem_getLast? ha
  obtain ⟨h1, h2⟩ := List.mem_filter.mp hmem
  obtain ⟨r, hr⟩ := hwf a h1 (by simpa using h2)
  rw [routesOf_eq_map anns hwf, List.getLast?_map, ha]
  simp only [Option.map_some', Option.getD_some, hr]

/-! ## The response pattern -/

theorem run_cls {α : Type} (p : Char → Bool) (c : Char) (s : Str) (pos : Nat) (caps : Caps)
    (k : Nat → Str → Caps → Option α) (hc : p c = true) :
    (Re.cls p).run pos (c :: s) caps k = k (pos + 1) s caps := by
  simp [Re.run, hc]

theorem run_bot_zero {α : Type} (s : Str) (caps : Caps) (k : Nat → Str → Caps → Option α) :
    (Re.bot).run 0 s caps k = k 0 s caps := by
  simp [Re.run]

theorem starGo_isSome_here {α : Type} (p : Char → Bool) (k : Nat → Str → Option α) (pos : Nat)
    (s : Str) (h : ∃ v, k pos s = some v) : ∃ v, starGo p k pos s = some v := by
  cases s with
  | nil => simpa [starGo] using h
  | cons c s =>
    by_cases hc : p c = true
    · cases hs : starGo p k (pos + 1) s with
      | some v => exact ⟨v, by simp [starGo, hc, hs]⟩
      | none =>
        obtain ⟨v, hv⟩ := h
        exact ⟨v, by simp [starGo, hc, hs, hv]⟩
    · obtain ⟨v, hv⟩ := h
      exact ⟨v, by simp [starGo, hc, hv]⟩

theorem run_star_isSome_here {α : Type} (p : Char → Bool) (pos : Nat) (s : Str) (caps : Caps)
    (k : Nat → Str → Caps → Option α) (h : ∃ v, k pos s caps = some v) :
    ∃ v, (Re.star p).run pos s caps k = some v :=
  starGo_isSome_here p _ pos s h

theorem run_opt_isSome_skip {α : Type} (a : Re) (pos : Nat) (s : Str) (caps : Caps)
    (k : Nat → Str → Caps → Option α) (h : ∃ v, k pos s caps = some v) :
    ∃ v, (Re.opt a).run pos s caps k = some v := by
  cases ha : a.run pos s caps k with
  | some v => exact ⟨v, by simp [Re.run, ha]⟩
  | none =>
    obtain ⟨v, hv⟩ := h
    exact ⟨v, by simp [Re.run, ha, hv]⟩

theorem run_cls_inv {α : Type} (p : Char → Bool) (pos : Nat) (s : Str) (caps : Caps)
    (k : Nat → Str → Caps → Option α) (r : α) (h : (Re.cls p).run pos s caps k = some r) :
    ∃ c rest, s = c :: rest ∧ p c = true ∧ k (pos + 1) rest caps = some r := by
  cases s with
  | nil => simp [Re.run] at h
  | cons c s =>
    by_cases hc : p c = true
    · simp only [Re.run, hc, if_true] at h
      exact ⟨c, s, rfl, hc, h⟩
    · simp [Re.run, hc] at h

theorem run_opt_inv {α : Type} (a : Re) (pos : Nat) (s : Str) (caps : Caps)
    (k : Nat → Str → Caps → Option α) (r : α) (h : (Re.opt a).run pos s caps k = some r) :
    a.run pos s caps k = some r ∨ k pos s caps = some r := by
  simp only [Re.run] at h
  cases ha : a.run pos s caps k with
  | none => rw [ha] at h; exact Or.inr h
  | some r' => rw [ha] at h; exact Or.inl h

theorem run_bot_inv {α : Type} (pos : Nat) (s : Str) (caps : Caps)
    (k : Nat → Str → Caps → Option α) (r : α) (h : (Re.bot).run pos s caps k = some r) :
    pos = 0 ∧ k 0 s caps = some r := by
  by_cases hp : pos = 0
  · subst hp
    simpa [Re.run] using h
  · simp [Re.run, hp] at h

theorem run_eot_inv {α : Type} (pos : Nat) (s : Str) (caps : Caps)
    (k : Nat → Str → Caps → Option α) (r : α) (h : (Re.eot).run pos s caps k = some r) :
    s = [] ∧ k pos [] caps = some r := by
  cases s with
  | nil => exact ⟨rfl, by simpa [Re.run] using h⟩
  | cons c s => simp [Re.run] at h

theorem respData_isSome {α : Type} (pos : Nat) (s : Str) (caps : Caps)
    (k : Nat → Str → Caps → Option α) (hk : ∀ pe cs, ∃ v, k pe [] cs = some v)
    (hs : ∀ c ∈ s, isDot c = true) :
    ∃ v, ((Re.group 3 (Re.star isDot)).seq Re.eot).run pos s caps k = some v := by
  obtain ⟨v, hv⟩ := hk (pos + s.length) ((3, List.take (pos + s.length - pos) s) :: caps)
  refine ⟨v, ?_⟩
  rw [run_seq, run_group]
  apply run_star_all isDot s _ _ _ _ hs
  simpa [Re.run] using hv

theorem respData_inv {α : Type} (pos : Nat) (s : Str) (caps : Caps)
    (k : Nat → Str → Caps → Option α) (r : α)
    (h : ((Re.group 3 (Re.star isDot)).seq Re.eot).run pos s caps k = some r) :
    (∀ c ∈ s, isDot c = true) ∧ k (pos + s.length) [] ((3, s) :: caps) = some r := by
  rw [run_seq, run_group] at h
  obtain ⟨x, r2, e2, hx, h2⟩ := run_star_inv _ _ _ _ _ _ h
  clear h
  obtain ⟨e3, h3⟩ := run_eot_inv _ _ _ _ _ h2
  clear h2
  subst e3
  simp only [List.append_nil] at e2
  subst e2
  refine ⟨hx, ?_⟩
  simpa only [Nat.add_sub_cancel_left, List.take_length] using h3

/-- A greedy repetition stops at the end of the longest run when the rest of the
pattern, if it succeeds on a text, also succeeds on the text without its first
character. -/
theorem starGo_longest {α : Type} (p : Char → Bool) (K : Nat → Str → Option α)
    (hK : ∀ pos c s, p c = true → (∃ v, K pos (c :: s) = some v) → ∃ v, K (pos + 1) s = some v)
    (s : Str) (pos : Nat) (r : α) (h : starGo p K pos s = some r) :
    ∃ xs rest, s = xs ++ rest ∧ (∀ c ∈ xs, p c = true) ∧ (∀ c ∈ rest.head?, p c = false) ∧
      K (pos + xs.length) rest = some r := by
  induction s generalizing pos with
  | nil => exact ⟨[], [], rfl, by simp, by simp, by simpa [starGo] using h⟩
  | cons c s ih =>
    by_cases hc : p c = true
    · simp only [starGo, hc, if_true] at h
      cases hin : starGo p K (pos + 1) s with
      | some r' =>
        rw [hin] at h
        obtain ⟨xs, rest, e, hxs, hrest, hk⟩ := ih (pos + 1) (by rw [hin]; exact h)
        refine ⟨c :: xs, rest, by simp [e], ?_, hrest, ?_⟩
        · intro d hd
          rcases List.mem_cons.mp hd with h1 | h1
          · rw [h1]; exact hc
          · exact hxs d h1
        · rw [← hk]
          congr 1
          simp only [List.length_cons]
          omega
      | none =>
        exfalso
        rw [hin] at h
        obtain ⟨v, hv⟩ := starGo_isSome_here p K (pos + 1) s (hK pos c s hc ⟨r, h⟩)
        rw [hin] at hv
        exact Option.noConfusion hv
    · have hc' : p c = false := by simpa using hc
      simp only [starGo, hc] at h
      refine ⟨[], c :: s, rfl, by simp, ?_, by simpa using h⟩
      intro d hd
      simp only [List.head?_cons, Option.mem_def, Option.some.injEq] at hd
      subst hd
      exact hc'

/-- The tail `\s*(.*)$` of `respRegex`: what a match of it consumes and records.
The run of white space it takes is the longest one. -/
theorem respTail_inv {α : Type} (pos : Nat) (s : Str) (caps : Caps)
    (k : Nat → Str → Caps → Option α) (r : α) (hk : ∀ pe cs, ∃ v, k pe [] cs = some v)
    (h : ((Re.star isPerlSpace).seq ((Re.group 3 (Re.star isDot)).seq Re.eot)).run pos s caps k
      = some r) :
    ∃ w2 x pe, s = w2 ++ x ∧ (∀ c ∈ w2, isPerlSpace c = true) ∧ (∀ c ∈ x, isDot c = true) ∧
      (∀ c ∈ x.head?, isPerlSpace c = false) ∧ k pe [] ((3, x) :: caps) = some r := by
  have h' : starGo isPerlSpace
      (fun pos' s' => ((Re.group 3 (Re.star isDot)).seq Re.eot).run pos' s' caps k) pos s
      = some r := h
  obtain ⟨w2, x, e, hw2, hx0, hr⟩ := starGo_longest isPerlSpace _ (by
    intro pos c s _ ⟨v, hv⟩
    obtain ⟨hx, -⟩ := respData_inv _ _ _ _ _ hv
    exact respData_isSome (pos + 1) s caps k hk
      (fun d hd => hx d (List.mem_cons_of_mem _ hd))) s pos r h'
  obtain ⟨hx, hr'⟩ := respData_inv _ _ _ _ _ hr
  exact ⟨w2, x, _, e, hw2, hx, hx0, hr'⟩

theorem starGo_isSome_of_split {α : Type} (p : Char → Bool) (k : Nat → Str → Option α)
    (xs rest : Str) (pos : Nat) (hxs : ∀ c ∈ xs, p c = true)
    (h : ∃ v, k (pos + xs.length) rest = some v) : ∃ v, starGo p k pos (xs ++ rest) = some v := by
  induction xs generalizing pos with
  | nil => exact starGo_isSome_here p k pos rest (by simpa using h)
  | cons c xs ih =>
    have hc : p c = true := hxs c (List.mem_cons_self _ _)
    have h2 : ∃ v, starGo p k (pos + 1) (xs ++ rest) = some v := by
      apply ih (pos + 1) (fun d hd => hxs d (List.mem_cons_of_mem _ hd))
      obtain ⟨v, hv⟩ := h
      refine ⟨v, ?_⟩
      rw [← hv]
      congr 1
      simp only [List.length_cons]
      omega
    obtain ⟨v, hv⟩ := h2
    exact ⟨v, by simp [starGo, hc, hv]⟩

theorem respTail_isSome {α : Type} (pos : Nat) (w x : Str) (caps : Caps)
    (k : Nat → Str → Caps → Option α) (hk : ∀ pe cs, ∃ v, k pe [] cs = some v)
    (hw : ∀ c ∈ w, isPerlSpace c = true) (hx : ∀ c ∈ x, isDot c = true) :
    ∃ v, ((Re.star isPerlSpace).seq ((Re.group 3 (Re.star isDot)).seq Re.eot)).run pos (w ++ x)
      caps k = some v := by
  rw [run_seq]
  exact starGo_isSome_of_split isPerlSpace _ w x pos hw (respData_isSome _ x caps k hk hx)

/-- The wrapper group followed by the tail matches a braced token followed by a
text without newline. -/
theorem respWrapper_isSome {α : Type} (pos : Nat) (inner rest : Str) (caps : Caps)
    (k : Nat → Str → Caps → Option α) (hk : ∀ pe cs, ∃ v, k pe [] cs = some v)
    (hin : ∀ c ∈ inner, isNotRBrace c = true) (hrest : ∀ c ∈ rest, isDot c = true) :
    ∃ v, (Re.group 2 ((Re.lit ['{']).seq ((Re.star isNotRBrace).seq (Re.lit ['}'])))).run pos
      ('{' :: (inner ++ '}' :: rest)) caps
      (fun pos' s' caps' =>
        ((Re.star isPerlSpace).seq ((Re.group 3 (Re.star isDot)).seq Re.eot)).run pos' s' caps' k)
      = some v := by
  rw [run_group, run_seq]
  have hl := run_lit (α := α) ['{'] (inner ++ '}' :: rest)
  simp only [List.singleton_append] at hl
  rw [hl, run_seq]
  apply starGo_isSome_of_split isNotRBrace _ inner ('}' :: rest) _ hin
  have hl2 := run_lit (α := α) ['}'] rest
  simp only [List.singleton_append] at hl2
  beta_reduce
  rw [hl2]
  have := respTail_isSome (pos + ['{'].length + inner.length + ['}'].length) [] rest
    ((2, List.take (pos + ['{'].length + inner.length + ['}'].length - pos)
      ('{' :: (inner ++ '}' :: rest))) :: caps) k hk (by simp) hrest
  simpa using this

theorem first_rbrace (y : Str) (h : '}' ∈ y) :
    ∃ inner rest, y = inner ++ '}' :: rest ∧ ∀ c ∈ inner, isNotRBrace c = true := by
  induction y with
  | nil => simp at h
  | cons c y ih =>
    by_cases hc : c = '}'
    · exact ⟨[], y, by simp [hc], by simp⟩
    · have hy : '}' ∈ y := by
        rcases List.mem_cons.mp h with h1 | h1
        · exact absurd h1.symm hc
        · exact h1
      obtain ⟨inner, rest, e, hi⟩ := ih hy
      refine ⟨c :: inner, rest, by simp [e], ?_⟩
      intro d hd
      rcases List.mem_cons.mp hd with h2 | h2
      · rw [h2]
        simp only [isNotRBrace, bne_iff_ne, ne_eq]
        intro hn
        apply hc
        have := Char.ofNat_toNat c
        rw [hn] at this
        exact this.symm
      · exact hi d h2

theorem run_opt_inv_strict {α : Type} (a : Re) (pos : Nat) (s : Str) (caps : Caps)
    (k : Nat → Str → Caps → Option α) (r : α) (h : (Re.opt a).run pos s caps k = some r) :
    a.run pos s caps k = some r ∨ (a.run pos s caps k = none ∧ k pos s caps = some r) := by
  simp only [Re.run] at h
  cases ha : a.run pos s caps k with
  | none => rw [ha] at h; exact Or.inr ⟨rfl, h⟩
  | some r' => rw [ha] at h; exact Or.inl h

/-- What follows the first `\s*` of `respRegex`: the optional wrapper and the tail. -/
theorem respBody_step (pos : Nat) (c : Char) (s : Str) (caps : Caps)
    (k : Nat → Str → Caps → Option Caps) (hk : ∀ pe cs, ∃ v, k pe [] cs = some v)
    (hc : isPerlSpace c = true)
    (h : ∃ v, ((Re.opt (Re.group 2 ((Re.lit ['{']).seq ((Re.star isNotRBrace).seq
        (Re.lit ['}']))))).seq
      ((Re.star isPerlSpace).seq ((Re.group 3 (Re.star isDot)).seq Re.eot))).run pos (c :: s)
        caps k = some v) :
    ∃ v, ((Re.opt (Re.group 2 ((Re.lit ['{']).seq ((Re.star isNotRBrace).seq
        (Re.lit ['}']))))).seq
      ((Re.star isPerlSpace).seq ((Re.group 3 (Re.star isDot)).seq Re.eot))).run (pos + 1) s
        caps k = some v := by
  obtain ⟨v, hv⟩ := h
  rw [run_seq] at hv ⊢
  apply run_opt_isSome_skip
  rcases run_opt_inv _ _ _ _ _ _ hv with h1 | h1
  · exfalso
    rw [run_group, run_seq] at h1
    obtain ⟨r5, e5, -⟩ := run_lit_inv _ _ _ _ _ _ h1
    simp only [List.singleton_append, List.cons.injEq] at e5
    rw [e5.1] at hc
    exact absurd hc (by decide)
  · obtain ⟨w2, x, pe, e, hw2, hx, -, -⟩ := respTail_inv _ _ _ _ _ hk h1
    cases w2 with
    | nil =>
      simp only [List.nil_append] at e
      have := respTail_isSome (pos + 1) [] s caps k hk (by simp)
        (fun d hd => hx d (by rw [← e]; exact List.mem_cons_of_mem _ hd))
      simpa using this
    | cons d w2 =>
      simp only [List.cons_append, List.cons.injEq] at e
      rw [e.2]
      exact respTail_isSome (pos + 1) w2 x caps k hk
        (fun a ha => hw2 a (List.mem_cons_of_mem _ ha)) hx

theorem run_star_longest {α : Type} (p : Char → Bool) (pos : Nat) (s : Str) (caps : Caps)
    (k : Nat → Str → Caps → Option α) (r : α)
    (hk : ∀ pos c s, p c = true → (∃ v, k pos (c :: s) caps = some v) →
      ∃ v, k (pos + 1) s caps = some v)
    (h : (Re.star p).run pos s caps k = some r) :
    ∃ xs rest, s = xs ++ rest ∧ (∀ c ∈ xs, p c = true) ∧ (∀ c ∈ rest.head?, p c = false) ∧
      k (pos + xs.length) rest caps = some r :=
  starGo_longest p (fun pos' s' => k pos' s' caps) hk s pos r h

theorem respRegex_inv (pos : Nat) (s : Str) (caps : Caps)
    (h : matchAt respRegex pos s = some caps) :
    pos = 0 ∧ ∃ d1 d2 d3 w1 g w2 x,
      s = d1 :: d2 :: d3 :: (w1 ++ (g ++ (w2 ++ x))) ∧
      isDigit d1 = true ∧ isDigit d2 = true ∧ isDigit d3 = true ∧
      (∀ c ∈ w1, isPerlSpace c = true) ∧
      (g = [] ∨ ∃ inner, g = '{' :: (inner ++ ['}']) ∧ ∀ c ∈ inner, isNotRBrace c = true) ∧
      (∀ c ∈ w2, isPerlSpace c = true) ∧ (∀ c ∈ x, isDot c = true) ∧
      (∀ c ∈ x.head?, isPerlSpace c = false) ∧
      (g = [] → ∀ y, x = '{' :: y → '}' ∉ y) ∧
      capture caps 1 = [d1, d2, d3] ∧ capture caps 2 = g ∧ capture caps 3 = x := by
  rw [matchAt, respRegex, run_group, run_seq] at h
  obtain ⟨hp, h0⟩ := run_bot_inv _ _ _ _ _ h
  clear h
  subst hp
  refine ⟨rfl, ?_⟩
  rw [run_seq, run_group, run_seq] at h0
  obtain ⟨d1, r1, e1, hd1, h1⟩ := run_cls_inv _ _ _ _ _ _ h0
  clear h0
  rw [run_seq] at h1
  obtain ⟨d2, r2, e2, hd2, h2⟩ := run_cls_inv _ _ _ _ _ _ h1
  clear h1
  obtain ⟨d3, r3, e3, hd3, h3⟩ := run_cls_inv _ _ _ _ _ _ h2
  clear h2
  subst e1 e2 e3
  rw [run_seq] at h3
  obtain ⟨w1, r4, e4, hw1, hr4, h4⟩ := run_star_longest _ _ _ _ _ _ (by
    intro pos c s hc hv
    exact respBody_step pos c s _ _ (fun _ _ => ⟨_, rfl⟩) hc hv) h3
  clear h3
  subst e4
  rw [run_seq] at h4
  have hc1 : List.take (0 + 1 + 1 + 1 - 0) (d1 :: d2 :: d3 :: (w1 ++ r4)) = [d1, d2, d3] := by
    simp
  rw [hc1] at h4
  rcases run_opt_inv_strict _ _ _ _ _ _ h4 with h5 | ⟨hnone, h5⟩
  · clear h4
    rw [run_group, run_seq] at h5
    obtain ⟨r5, e5, h6⟩ := run_lit_inv _ _ _ _ _ _ h5
    clear h5
    rw [run_seq] at h6
    obtain ⟨inner, r6, e6, hin, h7⟩ := run_star_inv _ _ _ _ _ _ h6
    clear h6
    obtain ⟨r7, e7, h8⟩ := run_lit_inv _ _ _ _ _ _ h7
    clear h7
    subst e7 e6 e5
    obtain ⟨w2, x, pe, e8, hw2, hx, hx0, h9⟩ :=
      respTail_inv _ _ _ _ _ (fun _ _ => ⟨_, rfl⟩) h8
    clear h8
    subst e8
    refine ⟨d1, d2, d3, w1, '{' :: (inner ++ ['}']), w2, x, by simp, hd1, hd2, hd3, hw1,
      Or.inr ⟨inner, rfl, hin⟩, hw2, hx, hx0, fun hg => List.noConfusion hg, ?_⟩
    simp only [Option.some.injEq] at h9
    subst h9
    have e : 0 + 1 + 1 + 1 + w1.length + ['{'].length + inner.length + ['}'].length
        - (0 + 1 + 1 + 1 + w1.length) = ('{' :: (inner ++ ['}'])).length := by
      simp only [List.length_cons, List.length_append, List.length_nil]
      omega
    have e' : ['{'] ++ (inner ++ (['}'] ++ (w2 ++ x))) = ('{' :: (inner ++ ['}'])) ++ (w2 ++ x) := by
      simp
    rw [e, e', List.take_left]
    simp [capture, List.find?]
  · clear h4
    obtain ⟨w2, x, pe, e8, hw2, hx, hx0, h9⟩ :=
      respTail_inv _ _ _ _ _ (fun _ _ => ⟨_, rfl⟩) h5
    clear h5
    subst e8
    refine ⟨d1, d2, d3, w1, [], w2, x, by simp, hd1, hd2, hd3, hw1, Or.inl rfl, hw2, hx, hx0,
      ?_, ?_⟩
    · intro _ y hy hmem
      obtain ⟨inner, rest, ey, hin⟩ := first_rbrace y hmem
      subst hy ey
      cases w2 with
      | cons d w2 =>
        have h1 := hr4 d (by simp)
        rw [hw2 d (List.mem_cons_self _ _)] at h1
        exact Bool.noConfusion h1
      | nil =>
        obtain ⟨v, hv⟩ := respWrapper_isSome (0 + 1 + 1 + 1 + w1.length) inner rest
          [(1, [d1, d2, d3])]
          (fun pos' _ caps' => some ((0, List.take (pos' - 0)
            (d1 :: d2 :: d3 :: (w1 ++ '{' :: (inner ++ '}' :: rest)))) :: caps'))
          (fun _ _ => ⟨_, rfl⟩) hin
          (fun c hc => hx c (by simp [hc]))
        simp only [List.nil_append] at hnone
        rw [hnone] at hv
        exact Option.noConfusion hv
    simp only [Option.some.injEq] at h9
    subst h9
    simp [capture, List.find?]

theorem respRegex_match_exists (d1 d2 d3 : Char) (r : Str)
    (hd1 : isDigit d1 = true) (hd2 : isDigit d2 = true) (hd3 : isDigit d3 = true)
    (hr : ∀ c ∈ r, isDot c = true) :
    ∃ caps, matchAt respRegex 0 (d1 :: d2 :: d3 :: r) = some caps := by
  rw [matchAt, respRegex, run_group, run_seq, run_bot_zero, run_seq, run_group, run_seq,
    run_cls _ _ _ _ _ _ hd1, run_seq, run_cls _ _ _ _ _ _ hd2, run_cls _ _ _ _ _ _ hd3, run_seq]
  apply run_star_isSome_here
  rw [run_seq]
  apply run_opt_isSome_skip
  rw [run_seq]
  apply run_star_isSome_here
  rw [run_seq, run_group]
  exact ⟨_, run_star_all isDot r _ _ _ _ hr rfl⟩

theorem Atoi_three_digits (d1 d2 d3 : Char)
    (hd1 : isDigit d1 = true) (hd2 : isDigit d2 = true) (hd3 : isDigit d3 = true) :
    Atoi [d1, d2, d3]
      = some (((d1.toNat - 48) * 100 + (d2.toNat - 48) * 10 + (d3.toNat - 48) : Nat) : Int) := by
  have h1 : d1 ≠ '-' := by
    intro e
    rw [e] at hd1
    exact absurd hd1 (by decide)
  have h2 : d1 ≠ '+' := by
    intro e
    rw [e] at hd1
    exact absurd hd1 (by decide)
  have hv : digitsValue [d1, d2, d3] 0
      = some ((d1.toNat - 48) * 100 + (d2.toNat - 48) * 10 + (d3.toNat - 48)) := by
    simp only [digitsValue, hd1, hd2, hd3, if_true, Option.some.injEq]
    omega
  unfold Atoi
  split
  rename_i x neg body heq
  split at heq
  · rename_i r e
    simp only [List.cons.injEq] at e
    exact absurd e.1 h1
  · rename_i r e
    simp only [List.cons.injEq] at e
    exact absurd e.1 h2
  · simp only [Prod.mk.injEq] at heq
    obtain ⟨e1, e2⟩ := heq
    subst e1 e2
    have hb' : (d1.toNat - 48) * 100 + (d2.toNat - 48) * 10 + (d3.toNat - 48)
        < 9223372036854775808 := by
      simp only [isDigit, Bool.and_eq_true, decide_eq_true_eq] at hd1 hd2 hd3
      omega
    simp [hv, hb']

theorem NewMarkdownResponse_of_search_none (t : Str)
    (h : searchFrom respRegex 0 t = none) : NewMarkdownResponse t = none := by
  simp [NewMarkdownResponse, FindStringSubmatch, h]

theorem NewMarkdownResponse_of_search_some (t : Str) (caps : Caps)
    (h : searchFrom respRegex 0 t = some caps) :
    NewMarkdownResponse t
      = match Atoi (capture caps 1) with
        | none => none
        | some code =>
          some { Code := code, ParamType := capture caps 2, DataType := capture caps 3,
                 Description := [] } := by
  have hg : respRegex.numGroups = 3 := rfl
  simp [NewMarkdownResponse, FindStringSubmatch, h, hg, List.range_succ]

/-- What a match of `respRegex` anywhere in the text says: it starts at position 0. -/
theorem respRegex_search_inv (t : Str) (caps : Caps)
    (h : searchFrom respRegex 0 t = some caps) :
    ∃ d1 d2 d3 w1 g w2 x,
      t = d1 :: d2 :: d3 :: (w1 ++ (g ++ (w2 ++ x))) ∧
      isDigit d1 = true ∧ isDigit d2 = true ∧ isDigit d3 = true ∧
      (∀ c ∈ w1, isPerlSpace c = true) ∧
      (g = [] ∨ ∃ inner, g = '{' :: (inner ++ ['}']) ∧ ∀ c ∈ inner, isNotRBrace c = true) ∧
      (∀ c ∈ w2, isPerlSpace c = true) ∧ (∀ c ∈ x, isDot c = true) ∧
      (∀ c ∈ x.head?, isPerlSpace c = false) ∧
      (g = [] → ∀ y, x = '{' :: y → '}' ∉ y) ∧
      capture caps 1 = [d1, d2, d3] ∧ capture caps 2 = g ∧ capture caps 3 = x := by
  obtain ⟨pre, rest, e, hm⟩ := searchFrom_inv _ _ _ _ h
  obtain ⟨hp, hrest⟩ := respRegex_inv _ _ _ hm
  have hpre : pre = [] := by
    apply List.eq_nil_of_length_eq_zero
    omega
  subst hpre
  simp only [List.nil_append] at e
  subst e
  exact hrest

theorem NewMarkdownResponse_some_inv (t : Str) (r : MarkdownResponse)
    (h : NewMarkdownResponse t = some r) :
    ∃ d1 d2 d3 w1 w2,
      t = d1 :: d2 :: d3 :: (w1 ++ (r.ParamType ++ (w2 ++ r.DataType))) ∧
      isDigit d1 = true ∧ isDigit d2 = true ∧ isDigit d3 = true ∧
      (∀ c ∈ w1, isPerlSpace c = true) ∧
      (r.ParamType = [] ∨
        ∃ inner, r.ParamType = '{' :: (inner ++ ['}']) ∧ ∀ c ∈ inner, isNotRBrace c = true) ∧
      (∀ c ∈ w2, isPerlSpace c = true) ∧ (∀ c ∈ r.DataType, isDot c = true) ∧
      (∀ c ∈ r.DataType.head?, isPerlSpace c = false) ∧
      (r.ParamType = [] → ∀ y, r.DataType = '{' :: y → '}' ∉ y) ∧
      r.Code = (((d1.toNat - 48) * 100 + (d2.toNat - 48) * 10 + (d3.toNat - 48) : Nat) : Int) ∧
      r.Description = [] := by
  cases hs : searchFrom respRegex 0 t with
  | none =>
    rw [NewMarkdownResponse_of_search_none t hs] at h
    exact Option.noConfusion h
  | some caps =>
    obtain ⟨d1, d2, d3, w1, g, w2, x, e, hd1, hd2, hd3, hw1, hg, hw2, hx, hx0, hb, c1, c2, c3⟩ :=
      respRegex_search_inv t caps hs
    rw [NewMarkdownResponse_of_search_some t caps hs, c1, c2, c3,
      Atoi_three_digits d1 d2 d3 hd1 hd2 hd3] at h
    simp only [Option.some.injEq] at h
    subst h
    exact ⟨d1, d2, d3, w1, w2, e, hd1, hd2, hd3, hw1, hg, hw2, hx, hx0, hb, rfl, rfl⟩

theorem takeWhile_append_stop (p : Char → Bool) (xs rest : Str) (hxs : ∀ c ∈ xs, p c = true)
    (hrest : ∀ c ∈ rest.head?, p c = false) : (xs ++ rest).takeWhile p = xs := by
  induction xs with
  | nil =>
    cases rest with
    | nil => rfl
    | cons c r =>
      have : p c = false := hrest c (by simp)
      simp [List.takeWhile, this]
  | cons c xs ih =>
    have hc : p c = true := hxs c (List.mem_cons_self _ _)
    rw [List.cons_append, List.takeWhile_cons_of_pos hc,
      ih (fun d hd => hxs d (List.mem_cons_of_mem _ hd))]

theorem sampleAnnotations_wellFormed : routersWellFormed sampleAnnotations := by
  intro a ha hr
  simp only [sampleAnnotations, List.mem_cons, List.mem_singleton, List.not_mem_nil,
    or_false] at ha
  rcases ha with rfl | rfl | rfl | rfl | rfl | rfl | rfl | rfl | rfl | rfl | rfl | rfl
  all_goals first
    | exact absurd hr (by decide)
    | exact ⟨_, rfl⟩

/-! ## The properties, C1 to C20 -/

/-- C1 (the code breaks it): a Router text without white space makes `parseRouter`
read `parts[1]` of a one-element slice, so the parser panics with an index out
of range instead of reporting a malformed annotation, and `NewMarkdownAPISpec`
panics on any annotation sequence that holds such a Router annotation. -/
theorem parseRouter_without_space_panics (t : Str) (pre post : List SwagAnnotationComment)
    (h : ∀ c ∈ t, isSpace c = false) :
    parseRouter t = .error .indexOutOfRange ∧
    NewMarkdownAPISpec (pre ++ ⟨"Router".toList, t⟩ :: post) = .error .indexOutOfRange := by
  have hp : parseRouter t = .error .indexOutOfRange := by
    have hc : cutSpace t = none := by
      apply cutSpace_none
      intro c hc heq
      have := h c hc
      rw [heq, isSpace_space] at this
      exact Bool.noConfusion this
    simp [parseRouter, SplitN2, hc]
  exact ⟨hp, assembleFrom_router_error t hp pre post emptySpec⟩

/-- Witness of C1 at the Router text `/users`, after a Summary annotation. -/
theorem parseRouter_without_space_panics_witness :
    parseRouter "/users".toList = .error .indexOutOfRange ∧
    NewMarkdownAPISpec
        ([⟨"Summary".toList, "list users".toList⟩] ++ ⟨"Router".toList, "/users".toList⟩ :: [])
      = .error .indexOutOfRange :=
  parseRouter_without_space_panics "/users".toList [⟨"Summary".toList, "list users".toList⟩] []
    (by decide)

/-- C2 (the code breaks it): a comment that `hasSwaggerAnnotation` detects and from
which `extractAnnotationComment` extracts nothing is not skipped: the scan loop of
`ParseGoFile` dereferences the nil result and panics, whatever comments stand
before and after it. -/
theorem scanComments_nil_dereference (pre post : List Str) (c : Str)
    (acc : List SwagAnnotationComment)
    (hd : hasSwaggerAnnotation c = true) (hx : extractAnnotationComment c = none) :
    scanComments (pre ++ c :: post) acc = .error .nilDereference := by
  induction pre generalizing acc with
  | nil => simp [scanComments, hd, hx]
  | cons a pre ih =>
    simp only [List.cons_append, scanComments]
    split
    · split
      · exact ih _
      · rfl
    · exact ih _

/-- Witness of C2 at the comment `// @Summary`, between two well-formed comments. -/
theorem scanComments_nil_dereference_witness :
    scanComments (["// @Tags users".toList] ++ "// @Summary".toList ::
        ["// @Router /users get".toList]) []
      = .error .nilDereference :=
  scanComments_nil_dereference ["// @Tags users".toList] ["// @Router /users get".toList]
    "// @Summary".toList [] (by decide) (by decide)

/-- C3 (the code breaks it): the pattern of `hasSwaggerAnnotation` lists eight
keywords and leaves out `Failure`, so a comment carrying `@Failure` is not
detected, although `NewMarkdownAPISpec` has a case for the tag `Failure`. -/
theorem hasSwaggerAnnotation_misses_Failure :
    hasSwaggerAnnotation "// @Failure 404 \x7bobject\x7d Err not found".toList = false ∧
    hasSwaggerAnnotation "// @Success 200 \x7bobject\x7d User ok".toList = true := by
  decide

/-- C4 (the code breaks it): `respRegex` has three capture groups, so the branch of
`NewMarkdownResponse` that fills the description is never taken: the data type
receives the whole remainder and the description stays empty, on both examples
of the claim. -/
theorem NewMarkdownResponse_leaves_description_empty :
    NewMarkdownResponse "200 \x7bobject\x7d User success".toList
      = some { Code := 200, ParamType := "\x7bobject\x7d".toList,
               DataType := "User success".toList, Description := [] } ∧
    NewMarkdownResponse "404 not found".toList
      = some { Code := 404, ParamType := [], DataType := "not found".toList,
               Description := [] } := by
  decide

/-- C5: a file whose annotated comments are `// @Summary S` and `// @Router P M`, in
this order (S non-empty, without newline and not starting with white space; P and
M non-empty and free of white space), yields the two annotations, the record
with summary S, path P and method M, and the rendering
`|<M upper-cased>|P|`, `| --- | --- |`, `|summary|S|`, each line ended by a
newline and nothing else. -/
theorem summary_router_file_renders (upperCase : Char → Char) (comments : List Str)
    (S P M : Str)
    (hcs : comments.filter hasSwaggerAnnotation
      = ["// @Summary ".toList ++ S, "// @Router ".toList ++ (P ++ ' ' :: M)])
    (hS : S ≠ []) (hSl : ∀ c ∈ S, c ≠ '\n') (hS0 : ∀ c ∈ S.head?, isSpaceClass c = false)
    (hP : P ≠ []) (hPa : ∀ c ∈ P, isSpace c = false)
    (hM : M ≠ []) (hMa : ∀ c ∈ M, isSpace c = false) :
    scanComments comments []
      = .ok [⟨"Summary".toList, S⟩, ⟨"Router".toList, P ++ ' ' :: M⟩] ∧
    NewMarkdownAPISpec [⟨"Summary".toList, S⟩, ⟨"Router".toList, P ++ ' ' :: M⟩]
      = .ok { emptySpec with Method := M, Path := P, Summary := S } ∧
    MarkdownAPISpec.String upperCase { emptySpec with Method := M, Path := P, Summary := S }
      = "|".toList ++ ToUpper upperCase M ++ "|".toList ++ P ++ "|\n".toList ++
        "| --- | --- |\n".toList ++ "|summary|".toList ++ S ++ "|\n".toList := by
  have hh1 : hasSwaggerAnnotation ("// @Summary ".toList ++ S) = true := by
    have : "// @Summary ".toList ++ S ∈ comments.filter hasSwaggerAnnotation := by simp [hcs]
    exact (List.mem_filter.mp this).2
  have hh2 : hasSwaggerAnnotation ("// @Router ".toList ++ (P ++ ' ' :: M)) = true := by
    have : "// @Router ".toList ++ (P ++ ' ' :: M) ∈ comments.filter hasSwaggerAnnotation := by
      simp [hcs]
    exact (List.mem_filter.mp this).2
  have he1 : extractAnnotationComment ("// @Summary ".toList ++ S)
      = some ⟨"Summary".toList, S⟩ := by
    have := extract_line_comment "Summary".toList S (by simp [tagKeywords]) hS0
    rw [lineOf_eq_self S (fun c hc => isDot_of_ne (hSl c hc))] at this
    simpa using this
  have hPdot : ∀ c ∈ P ++ ' ' :: M, isDot c = true := by
    intro c hc
    rcases List.mem_append.mp hc with h | h
    · exact isDot_of_not_isSpace (hPa c h)
    · rcases List.mem_cons.mp h with h | h
      · rw [h]; decide
      · exact isDot_of_not_isSpace (hMa c h)
  have he2 : extractAnnotationComment ("// @Router ".toList ++ (P ++ ' ' :: M))
      = some ⟨"Router".toList, P ++ ' ' :: M⟩ := by
    have := extract_line_comment "Router".toList (P ++ ' ' :: M) (by simp [tagKeywords]) ?_
    · rw [lineOf_eq_self _ hPdot] at this
      simpa using this
    · cases P with
      | nil => exact absurd rfl hP
      | cons c P =>
        intro d hd
        simp at hd
        subst hd
        have := hPa c (List.mem_cons_self _ _)
        cases hsc : isSpaceClass c with
        | false => rfl
        | true => rw [isSpace_of_isSpaceClass hsc] at this; exact Bool.noConfusion this
  have hr : parseRouter (P ++ ' ' :: M) = .ok (P, M) := by
    have := parseRouter_split P [' '] M hP hPa (by simp; decide) (by simp) hM
      (fun c hc => hMa c (List.mem_of_mem_head? hc))
      (fun c hc => hMa c (List.mem_of_mem_getLast? hc))
    simpa using this
  refine ⟨?_, ?_, ?_⟩
  · rw [scanComments_filter, hcs]
    simp only [scanComments, hh1, hh2, he1, he2, if_true, List.nil_append, List.cons_append]
  · simp [NewMarkdownAPISpec, assembleFrom, assembleStep, hr, emptySpec]
  · simp [MarkdownAPISpec.String, emptySpec, hS]

/-- Witness of C5 with S = `list users`, P = `/users`, M = `get` and a plain comment
in between: the rendering is `|GET|/users|`, `| --- | --- |`, `|summary|list users|`. -/
theorem summary_router_file_renders_witness :
    scanComments ["// @Summary list users".toList, "// plain".toList,
        "// @Router /users get".toList] []
      = .ok [⟨"Summary".toList, "list users".toList⟩, ⟨"Router".toList, "/users get".toList⟩] ∧
    NewMarkdownAPISpec [⟨"Summary".toList, "list users".toList⟩,
        ⟨"Router".toList, "/users get".toList⟩]
      = .ok { emptySpec with Method := "get".toList, Path := "/users".toList,
                             Summary := "list users".toList } ∧
    MarkdownAPISpec.String id
        { emptySpec with Method := "get".toList, Path := "/users".toList,
                         Summary := "list users".toList }
      = "|GET|/users|\n| --- | --- |\n|summary|list users|\n".toList :=
  summary_router_file_renders id
    ["// @Summary list users".toList, "// plain".toList, "// @Router /users get".toList]
    "list users".toList "/users".toList "get".toList (by decide) (by decide) (by decide)
    (by decide) (by decide) (by decide) (by decide) (by decide)

/-- C6 (the code breaks it): the Responses loop tests `len(m.Params) > 1` where the
Params loop tests the length of the list it walks, so with no parameter the
second response row starts with a single pipe, not with `||`. -/
theorem String_response_rows_single_pipe (upperCase : Char → Char) :
    MarkdownAPISpec.String upperCase
      { emptySpec with
        Method := "get".toList, Path := "/users".toList,
        Responses := [⟨200, "\x7bobject\x7d".toList, "User".toList, []⟩,
                      ⟨404, [], "not found".toList, []⟩] }
      = ("|GET|/users|\n| --- | --- |\n" ++
         "|Responses|**200** \x7bobject\x7d User |\n" ++
         "|**404**  not found |\n").toList := by
  rfl

/-- C7: for non-empty alphanumeric n, l, t, a flag f that is `true` or `false`, and
a description d without newline that does not start with white space,
`NewMarkdownParam` on `n l t f d` (single spaces) returns the parameter with
name n, location l, type t, description d, and required exactly when f is
`true`. -/
theorem NewMarkdownParam_fields (n l t f d : Str)
    (hn : n ≠ []) (hna : ∀ c ∈ n, isAlnum c = true)
    (hl : l ≠ []) (hla : ∀ c ∈ l, isAlnum c = true)
    (ht : t ≠ []) (hta : ∀ c ∈ t, isAlnum c = true)
    (hf : f = "true".toList ∨ f = "false".toList)
    (hd : ∀ c ∈ d, c ≠ '\n') (hd0 : ∀ c ∈ d.head?, isSpaceClass c = false) :
    NewMarkdownParam (n ++ ' ' :: (l ++ ' ' :: (t ++ ' ' :: (f ++ ' ' :: d))))
      = some { Name := n, In := l, Type_ := t, Required := decide (f = "true".toList),
               Description := d } := by
  have hdot : ∀ c ∈ d, isDot c = true := by
    intro c hc
    exact isDot_of_ne (hd c hc)
  have hw := paramRegex_matchAt n [' '] l [' '] t [' '] f [' '] d 0 hn hna hl hla ht hta hf
    (by simp) (by simp; decide) (by simp) (by simp; decide) (by simp) (by simp; decide)
    (by simp) (by simp; decide) hdot hd0
  exact NewMarkdownParam_of_caps _ _ n l t f d (searchFrom_of_matchAt _ _ _ _ hw)

/-- Witness of C7 at `id path int true user identifier`. -/
theorem NewMarkdownParam_fields_witness :
    NewMarkdownParam "id path int true user identifier".toList
      = some { Name := "id".toList, In := "path".toList, Type_ := "int".toList,
               Required := true, Description := "user identifier".toList } :=
  NewMarkdownParam_fields "id".toList "path".toList "int".toList "true".toList
    "user identifier".toList (by decide) (by decide) (by decide) (by decide) (by decide)
    (by decide) (by decide) (by decide) (by decide)

/-- C8 (the code breaks it): `paramRegex` is searched without an anchor at the
beginning of the text, so a name field that holds a non-alphanumeric character
x (not white space) and ends with a non-empty alphanumeric run n does not make
`NewMarkdownParam` return none: with alphanumeric location l and type t, a flag
f that is `true` or `false`, and a description d without newline that does not
start with white space, the fields separated by non-empty runs of white space,
the function returns the parameter named n, the tail of the name field. -/
theorem NewMarkdownParam_name_tail (pre : Str) (x : Char) (n w1 l w2 t w3 f w4 d : Str)
    (hpre : ∀ c ∈ pre, isSpaceClass c = false)
    (hx : isAlnum x = false) (hxs : isSpaceClass x = false)
    (hn : n ≠ []) (hna : ∀ c ∈ n, isAlnum c = true)
    (hl : l ≠ []) (hla : ∀ c ∈ l, isAlnum c = true)
    (ht : t ≠ []) (hta : ∀ c ∈ t, isAlnum c = true)
    (hf : f = "true".toList ∨ f = "false".toList)
    (hw1 : w1 ≠ []) (hw1a : ∀ c ∈ w1, isSpaceClass c = true)
    (hw2 : w2 ≠ []) (hw2a : ∀ c ∈ w2, isSpaceClass c = true)
    (hw3 : w3 ≠ []) (hw3a : ∀ c ∈ w3, isSpaceClass c = true)
    (hw4 : w4 ≠ []) (hw4a : ∀ c ∈ w4, isSpaceClass c = true)
    (hd : ∀ c ∈ d, c ≠ '\n') (hd0 : ∀ c ∈ d.head?, isSpaceClass c = false) :
    NewMarkdownParam
        (pre ++ x :: (n ++ (w1 ++ (l ++ (w2 ++ (t ++ (w3 ++ (f ++ (w4 ++ d)))))))))
      = some { Name := n, In := l, Type_ := t, Required := decide (f = "true".toList),
               Description := d } := by
  have hdot : ∀ c ∈ d, isDot c = true := fun c hc => isDot_of_ne (hd c hc)
  have hm := paramRegex_matchAt n w1 l w2 t w3 f w4 d (0 + (pre ++ [x]).length)
    hn hna hl hla ht hta hf hw1 hw1a hw2 hw2a hw3 hw3a hw4 hw4a hdot hd0
  apply NewMarkdownParam_of_caps _ _ n l t f d
  rw [paramRegex_search_name_tail pre x _ hpre hx hxs]
  exact searchFrom_of_matchAt _ _ _ _ hm

/-- Witness of C8 at `user_id path int true identifier`, the example of the claim:
the result is not none but the parameter named `id`. -/
theorem NewMarkdownParam_name_tail_witness :
    NewMarkdownParam "user_id path int true identifier".toList
      = some { Name := "id".toList, In := "path".toList, Type_ := "int".toList,
               Required := true, Description := "identifier".toList } :=
  NewMarkdownParam_name_tail "user".toList '_' "id".toList " ".toList "path".toList " ".toList
    "int".toList " ".toList "true".toList " ".toList "identifier".toList
    (by decide) (by decide) (by decide) (by decide) (by decide) (by decide) (by decide)
    (by decide) (by decide) (by decide) (by decide) (by decide) (by decide) (by decide)
    (by decide) (by decide) (by decide) (by decide) (by decide) (by decide)

/-- C9: when the first `@keyword` of a comment (keyword one of the eight of the
pattern, no `@keyword` starting earlier) is followed by a non-empty run `ws` of
white space that ends at `body`, `extractAnnotationComment` returns one
annotation: its tag is that keyword and its text is `body` up to the next
newline or the end of the comment, later `@keyword`s on the line included. -/
theorem extractAnnotationComment_first_tag (pre kw ws body : Str)
    (hkw : kw ∈ tagKeywords)
    (hfirst : ∀ p k q, k ∈ tagKeywords →
      pre ++ '@' :: (kw ++ (ws ++ body)) = p ++ '@' :: (k ++ q) → pre.length ≤ p.length)
    (hws : ws ≠ []) (hwsa : ∀ c ∈ ws, isSpaceClass c = true)
    (hbody : ∀ c ∈ body.head?, isSpaceClass c = false) :
    extractAnnotationComment (pre ++ '@' :: (kw ++ (ws ++ body)))
      = some { CommentType := kw, CommentText := body.takeWhile isDot } :=
  extractAnnotationComment_first pre kw ws body hkw hfirst hws hwsa hbody

/-- Witness of C9 at the comment `// @Summary  list users @Tags x`, a newline and
`more`: the tag is `Summary` and the text is `list users @Tags x`. -/
theorem extractAnnotationComment_first_tag_witness :
    extractAnnotationComment "// @Summary \tlist users @Tags x\nmore".toList
      = some { CommentType := "Summary".toList,
               CommentText := "list users @Tags x".toList } :=
  extractAnnotationComment_first_tag "// ".toList "Summary".toList " \t".toList
    "list users @Tags x\nmore".toList (by decide)
    (by
      intro p k q _ e
      rcases p with _ | ⟨a, _ | ⟨b, _ | ⟨c, p⟩⟩⟩
      · simp at e
      · simp at e
      · simp at e
      · simp)
    (by decide) (by decide) (by decide)

/-- C10 (the code breaks it): `parseRouter` splits at the space character only, and
reads `parts[1]` unchecked.  For a path P without white space followed by a run
W of tabs and a method M, the result is never the pair (P, M); when M holds no
space character, as in `/users`, a tab, `get`, the text has no space at all and
the parser panics with an index out of range. -/
theorem parseRouter_tab_run_panics (P W M : Str)
    (hPa : ∀ c ∈ P, isSpace c = false) (hWa : ∀ c ∈ W, c = '\t') :
    parseRouter (P ++ (W ++ M)) ≠ .ok (P, M) ∧
    ((∀ c ∈ M, c ≠ ' ') → parseRouter (P ++ (W ++ M)) = .error .indexOutOfRange) := by
  have hPW : ∀ c ∈ P ++ W, c ≠ ' ' := by
    intro c hc heq
    rcases List.mem_append.mp hc with h | h
    · have := hPa c h
      rw [heq, isSpace_space] at this
      exact Bool.noConfusion this
    · have := hWa c h
      rw [heq] at this
      exact absurd this (by decide)
  have hpanic : (∀ c ∈ M, c ≠ ' ') → parseRouter (P ++ (W ++ M)) = .error .indexOutOfRange := by
    intro hM
    have hc : cutSpace (P ++ (W ++ M)) = none := by
      apply cutSpace_none
      intro c hc
      rw [← List.append_assoc] at hc
      rcases List.mem_append.mp hc with h | h
      · exact hPW c h
      · exact hM c h
    simp [parseRouter, SplitN2, hc]
  refine ⟨?_, hpanic⟩
  by_cases hsp : ' ' ∈ M
  · obtain ⟨M1, M2, e, h1⟩ := first_space M hsp
    subst e
    have hcut : cutSpace (((P ++ W) ++ M1) ++ ' ' :: M2) = some ((P ++ W) ++ M1, M2) := by
      apply cutSpace_append
      intro c hc
      rcases List.mem_append.mp hc with h | h
      · exact hPW c h
      · exact h1 c h
    have e2 : P ++ (W ++ (M1 ++ ' ' :: M2)) = ((P ++ W) ++ M1) ++ ' ' :: M2 := by simp
    rw [e2, parseRouter, SplitN2, hcut]
    intro h
    injection h with h
    have h2 : TrimSpace M2 = M1 ++ ' ' :: M2 := (Prod.mk.inj h).2
    have h3 := TrimSpace_length_le M2
    rw [h2] at h3
    simp only [List.length_append, List.length_cons] at h3
    omega
  · rw [hpanic (fun c hc heq => hsp (heq ▸ hc))]
    intro h
    cases h

/-- Witness of C10 at `/users`, a tab, `get`: the parser panics. -/
theorem parseRouter_tab_run_panics_witness :
    parseRouter "/users\tget".toList = .error .indexOutOfRange :=
  (parseRouter_tab_run_panics "/users".toList "\t".toList "get".toList
    (by decide) (by decide)).2 (by decide)

/-- C11: for a record without params and without responses, `String` returns the
line `|<method upper-cased>|<path>|`, the line `| --- | --- |`, and then, in this
order and only when the field is not empty, the lines for summary, description,
tags, accept and produce (lists joined by `, `), each ended by a newline; the
texts are inserted as they are. -/
theorem String_without_blocks (upperCase : Char → Char) (m : MarkdownAPISpec)
    (hp : m.Params = []) (hr : m.Responses = []) :
    m.String upperCase
      = "|".toList ++ ToUpper upperCase m.Method ++ "|".toList ++ m.Path ++ "|\n".toList ++
        "| --- | --- |\n".toList ++
        optLine "summary".toList m.Summary ++ optLine "description".toList m.Description ++
        listLine "Tags".toList m.Tags ++ listLine "Accept".toList m.Accept ++
        listLine "Produce".toList m.Produce := by
  rw [String_eq_headLines, hp, hr]
  simp [headLines]

/-- Witness of C11: method `post`, a summary that holds a pipe, two tags, one
produce entry, no description and no accept entry. -/
theorem String_without_blocks_witness :
    MarkdownAPISpec.String id
        { emptySpec with Method := "post".toList, Path := "/users".toList,
                         Summary := "a|b".toList, Tags := ["users".toList, "admin".toList],
                         Produce := ["json".toList] }
      = ("|POST|/users|\n| --- | --- |\n|summary|a|b|\n" ++
         "|Tags|users, admin|\n|Produce|json|\n").toList :=
  String_without_blocks id _ rfl rfl

/-- C12: for a record with the params p, ps (n = 1 + length of ps), the rendering is
the head lines, then n rows, one per parameter in list order, then the Responses
block: the first row is `|Params|` followed by the cell of p, every later row is
`||` followed by the cell of its parameter, and every cell ends with `|` and a
newline. -/
theorem params_block_rows (upperCase : Char → Char) (m : MarkdownAPISpec)
    (p : MarkdownParam) (ps : List MarkdownParam) (h : m.Params = p :: ps) :
    m.String upperCase
      = headLines upperCase m ++
        (("|Params|".toList ++ paramCell p) ::
          ps.map (fun q => "||".toList ++ paramCell q)).flatten ++
        (if m.Responses.length > 0 then
          "|Responses".toList ++ responseRows m.Params.length 0 m.Responses else []) ∧
    (("|Params|".toList ++ paramCell p) :: ps.map (fun q => "||".toList ++ paramCell q)).length
      = m.Params.length ∧
    ∀ q : MarkdownParam, "|\n".toList <:+ paramCell q := by
  refine ⟨?_, ?_, ?_⟩
  · rw [String_eq_headLines, h]
    have hb := paramRows_block p ps
    simp only [List.length_cons, gt_iff_lt, Nat.zero_lt_succ, if_true, List.flatten_cons] at hb ⊢
    rw [hb]
  · simp [h]
  · intro q
    exact ⟨_, rfl⟩

/-- Witness of C12 at a record with three params and no response. -/
theorem params_block_rows_witness :
    MarkdownAPISpec.String id sampleSpec
      = headLines id sampleSpec ++
        (("|Params|".toList ++ paramCell sampleParam) ::
          [sampleParam, sampleParam].map (fun q => "||".toList ++ paramCell q)).flatten ++
        (if sampleSpec.Responses.length > 0 then
          "|Responses".toList ++ responseRows sampleSpec.Params.length 0 sampleSpec.Responses
          else []) ∧
    (("|Params|".toList ++ paramCell sampleParam) ::
        [sampleParam, sampleParam].map (fun q => "||".toList ++ paramCell q)).length
      = sampleSpec.Params.length ∧
    ∀ q : MarkdownParam, "|\n".toList <:+ paramCell q :=
  params_block_rows id sampleSpec sampleParam [sampleParam, sampleParam] rfl

/-- C13 (the code breaks it): the format string of the Params loop does not hold the
en dash U+2013 between the word and the description but the three code points
U+00E2, U+20AC, U+201C (the bytes of an en dash read in a one-byte code page and
encoded again), so the cell of a parameter row is
`**id** path {int} required`, these three characters, `user identifier|`. -/
theorem String_param_row_dash :
    MarkdownAPISpec.String id
        { emptySpec with Method := "get".toList, Path := "/users".toList,
                         Params := [sampleParam] }
      = ("|GET|/users|\n| --- | --- |\n" ++
         "|Params|**id** path \x7bint\x7d required \u00e2\u20ac\u201c user identifier|\n").toList ∧
    paramDash ≠ "\u2013".toList := by
  constructor
  · rfl
  · decide

/-- C14: when every Router text is accepted by `parseRouter`, `NewMarkdownAPISpec`
returns a record whose tags, accept and produce are the texts of the Tags, Accept
and Produce annotations in order, whose params are the parameters
`NewMarkdownParam` accepts among the Param annotations in order, and whose
responses are the responses `NewMarkdownResponse` accepts among the Success and
Failure annotations in order; an annotation whose parser returns none leaves the
record as it is. -/
theorem NewMarkdownAPISpec_list_fields (anns : List SwagAnnotationComment)
    (hwf : routersWellFormed anns) :
    (∃ m, NewMarkdownAPISpec anns = .ok m ∧
      m.Tags = textsOf "Tags".toList anns ∧
      m.Accept = textsOf "Accept".toList anns ∧
      m.Produce = textsOf "Produce".toList anns ∧
      m.Params = paramsOf anns ∧
      m.Responses = responsesOf anns) ∧
    (∀ (m : MarkdownAPISpec) (a : SwagAnnotationComment),
      a.CommentType = "Param".toList → NewMarkdownParam a.CommentText = none →
        assembleStep m a = .ok m) ∧
    (∀ (m : MarkdownAPISpec) (a : SwagAnnotationComment),
      a.CommentType = "Success".toList ∨ a.CommentType = "Failure".toList →
        NewMarkdownResponse a.CommentText = none → assembleStep m a = .ok m) := by
  refine ⟨?_, ?_, ?_⟩
  · obtain ⟨m, hm, -, -, f3, f4, f5, f6, f7, -⟩ := assembleFrom_fields anns emptySpec hwf
    exact ⟨m, hm, by simpa [emptySpec] using f3, by simpa [emptySpec] using f4,
      by simpa [emptySpec] using f5, by simpa [emptySpec] using f6,
      by simpa [emptySpec] using f7⟩
  · intro m a h hp
    obtain ⟨ty, tx⟩ := a
    simp only at h hp
    subst h
    simp [assembleStep, hp]
  · intro m a h hp
    obtain ⟨ty, tx⟩ := a
    simp only at h hp
    rcases h with h | h <;> subst h <;> simp [assembleStep, hp]

/-- Witness of C14 at `sampleAnnotations`: two equal Tags entries are both kept, the
Param text `broken` and the Failure text `bad` are dropped. -/
theorem NewMarkdownAPISpec_list_fields_witness :
    routersWellFormed sampleAnnotations ∧
    ((∃ m, NewMarkdownAPISpec sampleAnnotations = .ok m ∧
      m.Tags = textsOf "Tags".toList sampleAnnotations ∧
      m.Accept = textsOf "Accept".toList sampleAnnotations ∧
      m.Produce = textsOf "Produce".toList sampleAnnotations ∧
      m.Params = paramsOf sampleAnnotations ∧
      m.Responses = responsesOf sampleAnnotations) ∧
    (∀ (m : MarkdownAPISpec) (a : SwagAnnotationComment),
      a.CommentType = "Param".toList → NewMarkdownParam a.CommentText = none →
        assembleStep m a = .ok m) ∧
    (∀ (m : MarkdownAPISpec) (a : SwagAnnotationComment),
      a.CommentType = "Success".toList ∨ a.CommentType = "Failure".toList →
        NewMarkdownResponse a.CommentText = none → assembleStep m a = .ok m)) :=
  ⟨sampleAnnotations_wellFormed,
    NewMarkdownAPISpec_list_fields sampleAnnotations sampleAnnotations_wellFormed⟩

/-- C15: when every Router text is accepted by `parseRouter`, the record
`NewMarkdownAPISpec` returns has the text of the last Summary annotation as
summary and the text of the last Description annotation as description (empty
when there is none), and its path and method are the result of `parseRouter` on
the last Router annotation, as that parser returns them. -/
theorem NewMarkdownAPISpec_last_wins (anns : List SwagAnnotationComment)
    (hwf : routersWellFormed anns) :
    ∃ m, NewMarkdownAPISpec anns = .ok m ∧
      m.Summary = ((textsOf "Summary".toList anns).getLast?).getD [] ∧
      m.Description = ((textsOf "Description".toList anns).getLast?).getD [] ∧
      ∀ a, (anns.filter (fun a => a.CommentType = "Router".toList)).getLast? = some a →
        parseRouter a.CommentText = .ok (m.Path, m.Method) := by
  obtain ⟨m, hm, f1, f2, -, -, -, -, -, f8⟩ := assembleFrom_fields anns emptySpec hwf
  refine ⟨m, hm, f1, f2, ?_⟩
  intro a ha
  rw [f8]
  exact last_route anns hwf _ a ha

/-- Witness of C15 at `sampleAnnotations`, which holds two Summary annotations, no
Description annotation and two Router annotations. -/
theorem NewMarkdownAPISpec_last_wins_witness :
    routersWellFormed sampleAnnotations ∧
    ∃ m, NewMarkdownAPISpec sampleAnnotations = .ok m ∧
      m.Summary = ((textsOf "Summary".toList sampleAnnotations).getLast?).getD [] ∧
      m.Description = ((textsOf "Description".toList sampleAnnotations).getLast?).getD [] ∧
      ∀ a, (sampleAnnotations.filter
            (fun a => a.CommentType = "Router".toList)).getLast? = some a →
        parseRouter a.CommentText = .ok (m.Path, m.Method) :=
  ⟨sampleAnnotations_wellFormed,
    NewMarkdownAPISpec_last_wins sampleAnnotations sampleAnnotations_wellFormed⟩

/-- C16: when `hasSwaggerAnnotation` detects none of the comments of a file,
`ParseGoFile` returns without a panic and leaves the content of the output stream
as it was. -/
theorem ParseGoFile_no_detected (upperCase : Char → Char) (comments : List Str) (output : Str)
    (h : ∀ c ∈ comments, hasSwaggerAnnotation c = false) :
    ParseGoFile upperCase comments output = .ok output := by
  have hf : comments.filter hasSwaggerAnnotation = [] := by
    rw [List.filter_eq_nil_iff]
    intro c hc
    rw [h c hc]
    exact Bool.false_ne_true
  have hs : scanComments comments [] = .ok [] := by
    rw [scanComments_filter, hf]
    rfl
  simp [ParseGoFile, hs]

/-- Witness of C16 at two plain comments and a stream that already holds a line. -/
theorem ParseGoFile_no_detected_witness :
    ParseGoFile id ["// Package main".toList, "/* @summary in lower case */".toList]
        "|GET|/users|\n".toList
      = .ok "|GET|/users|\n".toList :=
  ParseGoFile_no_detected id _ _ (by decide)

/-- Counterexample of C17: the comment `// @Summary list users`, followed by a space
and a tab, holds one keyword, and the extracted text ends with that space and
that tab. -/
theorem extractAnnotationComment_trailing_space :
    extractAnnotationComment "// @Summary list users \t".toList
      = some { CommentType := "Summary".toList, CommentText := "list users \t".toList } ∧
    isSpaceClass '\t' = true := by
  decide

/-- C17 (amended): when the first `@keyword` of a comment is followed by a run `ws` of
white space and a text that starts with a character that is no white space, the
text of the annotation starts with that character and runs to the end of the
line: what follows the text on its line (`trail`, spaces and tabs included) is
kept. -/
theorem extractAnnotationComment_keeps_trailing (pre kw ws text trail rest : Str)
    (hkw : kw ∈ tagKeywords)
    (hfirst : ∀ p k q, k ∈ tagKeywords →
      pre ++ '@' :: (kw ++ (ws ++ (text ++ (trail ++ rest)))) = p ++ '@' :: (k ++ q) →
        pre.length ≤ p.length)
    (hws : ws ≠ []) (hwsa : ∀ c ∈ ws, isSpaceClass c = true)
    (htext : text ≠ []) (htext0 : ∀ c ∈ text.head?, isSpaceClass c = false)
    (hline : ∀ c ∈ text ++ trail, c ≠ '\n')
    (hrest : rest = [] ∨ rest.head? = some '\n') :
    extractAnnotationComment (pre ++ '@' :: (kw ++ (ws ++ (text ++ (trail ++ rest)))))
      = some { CommentType := kw, CommentText := text ++ trail } ∧
    ∀ c ∈ (text ++ trail).head?, isSpaceClass c = false := by
  have hhead : ∀ c ∈ (text ++ (trail ++ rest)).head?, isSpaceClass c = false := by
    cases text with
    | nil => exact absurd rfl htext
    | cons c text => simpa using htext0
  have hhead' : ∀ c ∈ (text ++ trail).head?, isSpaceClass c = false := by
    cases text with
    | nil => exact absurd rfl htext
    | cons c text => simpa using htext0
  have hl : lineOf (text ++ (trail ++ rest)) = text ++ trail := by
    rw [← List.append_assoc]
    apply takeWhile_append_stop
    · intro c hc
      exact isDot_of_ne (hline c hc)
    · rcases hrest with h | h
      · subst h
        simp
      · rw [h]
        intro c hc
        simp only [Option.mem_def, Option.some.injEq] at hc
        subst hc
        decide
  have := extractAnnotationComment_first pre kw ws (text ++ (trail ++ rest)) hkw hfirst hws hwsa
    hhead
  rw [hl] at this
  exact ⟨this, hhead'⟩

/-- Witness of C17 (amended) at a block comment whose first line is
`/* @Tags users` followed by two spaces. -/
theorem extractAnnotationComment_keeps_trailing_witness :
    extractAnnotationComment "/* @Tags   users  \n more */".toList
      = some { CommentType := "Tags".toList, CommentText := "users  ".toList } ∧
    ∀ c ∈ ("users".toList ++ "  ".toList).head?, isSpaceClass c = false :=
  extractAnnotationComment_keeps_trailing "/* ".toList "Tags".toList "   ".toList
    "users".toList "  ".toList "\n more */".toList (by decide)
    (by
      intro p k q _ e
      rcases p with _ | ⟨a, _ | ⟨b, _ | ⟨c, p⟩⟩⟩
      · simp at e
      · simp at e
      · simp at e
      · simp)
    (by decide) (by decide) (by decide) (by decide) (by decide) (Or.inr rfl)

/-- Counterexample of C18: `2000 ok` starts with four digits and `NewMarkdownResponse`
returns a response, with code 200 and the fourth digit in the data type. -/
theorem NewMarkdownResponse_four_digits :
    NewMarkdownResponse "2000 ok".toList
      = some { Code := 200, ParamType := [], DataType := "0 ok".toList, Description := [] } := by
  decide

/-- C18 (amended): for a text without newline, `NewMarkdownResponse` returns a
response exactly when the first three characters of the text are decimal digits,
whatever follows them. -/
theorem NewMarkdownResponse_isSome_iff (t : Str) (hline : ∀ c ∈ t, c ≠ '\n') :
    (∃ r, NewMarkdownResponse t = some r) ↔
      ∃ d1 d2 d3 rest, t = d1 :: d2 :: d3 :: rest ∧
        isDigit d1 = true ∧ isDigit d2 = true ∧ isDigit d3 = true := by
  constructor
  · rintro ⟨r, hr⟩
    obtain ⟨d1, d2, d3, w1, w2, e, hd1, hd2, hd3, -⟩ := NewMarkdownResponse_some_inv t r hr
    exact ⟨d1, d2, d3, _, e, hd1, hd2, hd3⟩
  · rintro ⟨d1, d2, d3, rest, e, hd1, hd2, hd3⟩
    subst e
    have hdot : ∀ c ∈ rest, isDot c = true := by
      intro c hc
      exact isDot_of_ne (hline c (by simp [hc]))
    obtain ⟨caps, hm⟩ := respRegex_match_exists d1 d2 d3 rest hd1 hd2 hd3 hdot
    have hs := searchFrom_of_matchAt _ _ _ _ hm
    obtain ⟨e1, e2, e3, w1, g, w2, x, -, he1, he2, he3, -, -, -, -, -, -, c1, -, -⟩ :=
      respRegex_search_inv _ caps hs
    rw [NewMarkdownResponse_of_search_some _ caps hs, c1, Atoi_three_digits e1 e2 e3 he1 he2 he3]
    exact ⟨_, rfl⟩

/-- Witness of C18 (amended): `20 ok` has two leading digits and yields none. -/
theorem NewMarkdownResponse_isSome_iff_witness :
    ¬ ∃ r, NewMarkdownResponse "20 ok".toList = some r :=
  fun h => by
    obtain ⟨d1, d2, d3, rest, e, -, -, hd3⟩ :=
      (NewMarkdownResponse_isSome_iff "20 ok".toList (by decide)).mp h
    simp only [String.toList, List.cons.injEq] at e
    obtain ⟨-, -, e3, -⟩ := e
    rw [← e3] at hd3
    exact absurd hd3 (by decide)

/-- C19: when `NewMarkdownResponse` returns a response, its description is empty and
the text is the three-digit code, white space, the wrapper (empty, or a token
in braces without a closing brace inside), white space, and the data type: the
data type is the whole remainder of the text, it does not start with white
space, and when no wrapper is recorded it does not start with a token in
braces. -/
theorem NewMarkdownResponse_remainder (t : Str) (r : MarkdownResponse)
    (h : NewMarkdownResponse t = some r) :
    r.Description = [] ∧
    ∃ d1 d2 d3 w1 w2,
      t = d1 :: d2 :: d3 :: (w1 ++ (r.ParamType ++ (w2 ++ r.DataType))) ∧
      isDigit d1 = true ∧ isDigit d2 = true ∧ isDigit d3 = true ∧
      (∀ c ∈ w1, isPerlSpace c = true) ∧ (∀ c ∈ w2, isPerlSpace c = true) ∧
      (r.ParamType = [] ∨
        ∃ inner, r.ParamType = '{' :: (inner ++ ['}']) ∧ ∀ c ∈ inner, isNotRBrace c = true) ∧
      (∀ c ∈ r.DataType.head?, isPerlSpace c = false) ∧
      (r.ParamType = [] → ∀ y, r.DataType = '{' :: y → '}' ∉ y) := by
  obtain ⟨d1, d2, d3, w1, w2, e, hd1, hd2, hd3, hw1, hg, hw2, -, hx0, hb, -, hdesc⟩ :=
    NewMarkdownResponse_some_inv t r h
  exact ⟨hdesc, d1, d2, d3, w1, w2, e, hd1, hd2, hd3, hw1, hw2, hg, hx0, hb⟩

/-- Witness of C19 at `200 {object} User success`: the data type is `User success`. -/
theorem NewMarkdownResponse_remainder_witness :
    ([] : Str) = [] ∧
    ∃ d1 d2 d3 w1 w2,
      "200 \x7bobject\x7d User success".toList
        = d1 :: d2 :: d3 :: (w1 ++ ("\x7bobject\x7d".toList ++ (w2 ++ "User success".toList))) ∧
      isDigit d1 = true ∧ isDigit d2 = true ∧ isDigit d3 = true ∧
      (∀ c ∈ w1, isPerlSpace c = true) ∧ (∀ c ∈ w2, isPerlSpace c = true) ∧
      ("\x7bobject\x7d".toList = [] ∨
        ∃ inner, "\x7bobject\x7d".toList = '{' :: (inner ++ ['}']) ∧
          ∀ c ∈ inner, isNotRBrace c = true) ∧
      (∀ c ∈ "User success".toList.head?, isPerlSpace c = false) ∧
      ("\x7bobject\x7d".toList = [] → ∀ y, "User success".toList = '{' :: y → '}' ∉ y) :=
  NewMarkdownResponse_remainder "200 \x7bobject\x7d User success".toList
    { Code := 200, ParamType := "\x7bobject\x7d".toList, DataType := "User success".toList,
      Description := [] } (by decide)

/-- C20: whenever `respRegex` matches, the text starts with three ASCII digits, they
are the captured code, `strconv.Atoi` succeeds on them, and the response is
returned with the decimal value of these three digits as status code, between
0 and 999: the error branch of the conversion is never taken. -/
theorem NewMarkdownResponse_code (t : Str) (h : (FindStringSubmatch respRegex t).length ≥ 2) :
    ∃ d1 d2 d3 rest, t = d1 :: d2 :: d3 :: rest ∧
      isDigit d1 = true ∧ isDigit d2 = true ∧ isDigit d3 = true ∧
      (FindStringSubmatch respRegex t).getD 1 [] = [d1, d2, d3] ∧
      Atoi [d1, d2, d3]
        = some (((d1.toNat - 48) * 100 + (d2.toNat - 48) * 10 + (d3.toNat - 48) : Nat) : Int) ∧
      (∃ r, NewMarkdownResponse t = some r ∧
        r.Code = (((d1.toNat - 48) * 100 + (d2.toNat - 48) * 10 + (d3.toNat - 48) : Nat) : Int) ∧
        0 ≤ r.Code ∧ r.Code ≤ 999) := by
  cases hs : searchFrom respRegex 0 t with
  | none => simp [FindStringSubmatch, hs] at h
  | some caps =>
    obtain ⟨d1, d2, d3, w1, g, w2, x, e, hd1, hd2, hd3, -, -, -, -, -, -, c1, -, -⟩ :=
      respRegex_search_inv t caps hs
    have hg : respRegex.numGroups = 3 := rfl
    refine ⟨d1, d2, d3, _, e, hd1, hd2, hd3, ?_, Atoi_three_digits d1 d2 d3 hd1 hd2 hd3, ?_⟩
    · simp [FindStringSubmatch, hs, hg, List.range_succ, c1]
    · rw [NewMarkdownResponse_of_search_some t caps hs, c1,
        Atoi_three_digits d1 d2 d3 hd1 hd2 hd3]
      refine ⟨_, rfl, rfl, ?_, ?_⟩
      · exact Int.ofNat_nonneg _
      · simp only [isDigit, Bool.and_eq_true, decide_eq_true_eq] at hd1 hd2 hd3
        show (((d1.toNat - 48) * 100 + (d2.toNat - 48) * 10 + (d3.toNat - 48) : Nat) : Int) ≤ 999
        omega

/-- Witness of C20 at `404 not found`. -/
theorem NewMarkdownResponse_code_witness :
    ∃ d1 d2 d3 rest, "404 not found".toList = d1 :: d2 :: d3 :: rest ∧
      isDigit d1 = true ∧ isDigit d2 = true ∧ isDigit d3 = true ∧
      (FindStringSubmatch respRegex "404 not found".toList).getD 1 [] = [d1, d2, d3] ∧
      Atoi [d1, d2, d3]
        = some (((d1.toNat - 48) * 100 + (d2.toNat - 48) * 10 + (d3.toNat - 48) : Nat) : Int) ∧
      (∃ r, NewMarkdownResponse "404 not found".toList = some r ∧
        r.Code = (((d1.toNat - 48) * 100 + (d2.toNat - 48) * 10 + (d3.toNat - 48) : Nat) : Int) ∧
        0 ≤ r.Code ∧ r.Code ≤ 999) :=
  NewMarkdownResponse_code "404 not found".toList (by decide)

end Swamd
